import Mathlib

/-!
Verification of the Wordle bot (`wordle.py`).

The mutable attributes of a `Wordle` object are embedded as a record
`GameState`; Python dicts (which preserve insertion order) are embedded as
association lists, with `dictSet` / `dictAppend` reproducing Python's
assignment and append-to-bucket semantics.  Methods that can raise are
embedded as functions into `Except Err`.  The randomness of
`np.random.choice` is abstracted by an index parameter threaded through the
play loop.
-/

namespace WordleBot

/-- Per-position feedback squares appended to the board row: green (exact
match), yellow (letter present elsewhere in the answer), gray (letter absent
from the answer). -/
inductive Square where
  | green
  | yellow
  | gray
deriving DecidableEq

/-- Error kinds.  `wordLengthError`, `invalidWordError`, `versionError` are the
exception classes defined in `wordle.py`; `indexError`, `valueError` and
`zeroDivisionError` are Python/numpy builtin exceptions reachable from its
code (out-of-range string indexing, `np.random.choice` on an empty sequence,
division by a zero score total); `emptyCandidateSetError` and
`lengthMismatchError` are error kinds named only by the specification, with
no counterpart anywhere in the code. -/
inductive Err where
  | wordLengthError
  | invalidWordError
  | versionError
  | indexError
  | valueError
  | zeroDivisionError
  | emptyCandidateSetError
  | lengthMismatchError
deriving DecidableEq

/-- A word: a Python string seen as a list of characters, indexed by position. -/
abbrev Word := List Char

/-- Popularity scores (zipf frequencies).  The embedded logic only ever sums
scores and compares the total with zero, so they are modelled as integers. -/
abbrev Score := Int

/-- The mutable attributes of a `Wordle` object after `__init__` has loaded
the word list: `answer` is the target, `freq` the full scored lexicon in
insertion (descending score) order, `filtered` the current candidate dict,
`not_in` / `contains` / `equals` the three constraint stores, `guesses` and
`board` the histories. -/
structure GameState where
  answer : Word
  freq : List (Word × Score)
  played : Bool
  solved : Bool
  filtered : List (Word × Score)
  not_in : List Char
  contains : List (Nat × List Char)
  equals : List (Nat × Char)
  guesses : List Word
  board : List (List Square)
deriving DecidableEq

/-- The session state `Wordle.__init__` leaves behind, given the chosen
answer and the scored word list `freq`. -/
def initState (answer : Word) (freq : List (Word × Score)) : GameState :=
  { answer := answer, freq := freq, played := false, solved := false,
    filtered := freq, not_in := [], contains := [], equals := [],
    guesses := [], board := [] }

/-- Lookup in an insertion-ordered dict modelled as an association list. -/
def dlookup : List (Nat × α) → Nat → Option α
  | [], _ => none
  | (k, v) :: d, j => if k = j then some v else dlookup d j

/-- Python dict assignment `d[j] = v`: overwrite in place when the key is
present (keeping its position), append a new entry otherwise. -/
def dictSet : List (Nat × α) → Nat → α → List (Nat × α)
  | [], j, v => [(j, v)]
  | (k, w) :: d, j, v => if k = j then (k, v) :: d else (k, w) :: dictSet d j v

/-- Python `d[j] = [v]` when the key is absent, `d[j].append(v)` when present,
as `check_word` does for `self.contains`. -/
def dictAppend : List (Nat × List Char) → Nat → Char → List (Nat × List Char)
  | [], j, v => [(j, [v])]
  | (k, ls) :: d, j, v =>
    if k = j then (k, ls ++ [v]) :: d else (k, ls) :: dictAppend d j v

/-- The letters recorded at position `k` (empty when the key is absent). -/
def cList (d : List (Nat × List Char)) (k : Nat) : List Char :=
  (dlookup d k).getD []

/-- The loop body of `Wordle.check_word` threaded over the positions `js`,
carrying the board row under construction and the three constraint stores.
`answer[j]` and `guess[j]` out of range raise Python's IndexError. -/
structure CheckAcc where
  bd : List Square
  equals : List (Nat × Char)
  contains : List (Nat × List Char)
  not_in : List Char
deriving DecidableEq

def checkPositions (answer guess : Word) : List Nat → CheckAcc → Except Err CheckAcc
  | [], acc => .ok acc
  | j :: js, acc =>
    match answer.get? j, guess.get? j with
    | some tLet, some gLet =>
      if gLet = tLet then
        checkPositions answer guess js
          ⟨acc.bd ++ [.green], dictSet acc.equals j gLet, acc.contains, acc.not_in⟩
      else if gLet ∈ answer then
        checkPositions answer guess js
          ⟨acc.bd ++ [.yellow], acc.equals, dictAppend acc.contains j gLet, acc.not_in⟩
      else
        checkPositions answer guess js
          ⟨acc.bd ++ [.gray], acc.equals, acc.contains, acc.not_in ++ [gLet]⟩
    | _, _ => .error .indexError

/-- `Wordle.check_word`: if not already solved, classify every position of the
guess against the answer, absorbing the constraints and appending the new row
to the board. -/
def check_word (st : GameState) (guess : Word) : Except Err GameState :=
  if st.solved then .ok st
  else
    match checkPositions st.answer guess (List.range st.answer.length)
        ⟨[], st.equals, st.contains, st.not_in⟩ with
    | .ok acc => .ok { st with
        equals := acc.equals, contains := acc.contains, not_in := acc.not_in,
        board := st.board ++ [acc.bd] }
    | .error e => .error e

/-- Evaluate `word[k]`; Python raises IndexError out of range. -/
def pyIndex (w : Word) (k : Nat) : Except Err Char :=
  match w.get? k with
  | some c => .ok c
  | none => .error .indexError

/-- A Python dict comprehension over the candidate dict with a predicate that
can raise: entries are kept in order; an exception aborts the whole
comprehension. -/
def pyFilter (p : α → Except Err Bool) : List α → Except Err (List α)
  | [] => .ok []
  | a :: l =>
    match p a with
    | .error e => .error e
    | .ok b =>
      match pyFilter p l with
      | .error e => .error e
      | .ok rest => .ok (if b then a :: rest else rest)

/-- First pass of `Wordle.filter_possible`: for each `(k, c)` recorded in
`self.equals`, keep the words with `word[k] == c`. -/
def filterEquals : List (Nat × Char) → List (Word × Score) → Except Err (List (Word × Score))
  | [], d => .ok d
  | (k, c) :: eqs, d =>
    match pyFilter (fun ws =>
        match pyIndex ws.1 k with
        | .error e => .error e
        | .ok ch => .ok (decide (ch = c))) d with
    | .error e => .error e
    | .ok d1 => filterEquals eqs d1

/-- Inner loop of the second pass: for each letter `c` recorded at position
`k`, keep the words with `c in word and not word[k] == c` (Python's `and`
short-circuits, so `word[k]` is only evaluated when `c` occurs in the word). -/
def filterLets (k : Nat) : List Char → List (Word × Score) → Except Err (List (Word × Score))
  | [], d => .ok d
  | c :: cs, d =>
    match pyFilter (fun ws =>
        if c ∈ ws.1 then
          match pyIndex ws.1 k with
          | .error e => .error e
          | .ok ch => .ok (decide (¬ ch = c))
        else .ok false) d with
    | .error e => .error e
    | .ok d1 => filterLets k cs d1

/-- Second pass of `Wordle.filter_possible`, over `self.contains`. -/
def filterContains : List (Nat × List Char) → List (Word × Score) → Except Err (List (Word × Score))
  | [], d => .ok d
  | (k, cs) :: rest, d =>
    match filterLets k cs d with
    | .error e => .error e
    | .ok d1 => filterContains rest d1

/-- Third pass of `Wordle.filter_possible`: drop every word containing an
excluded letter. -/
def filterNotIn : List Char → List (Word × Score) → Except Err (List (Word × Score))
  | [], d => .ok d
  | c :: cs, d =>
    match pyFilter (fun ws => .ok (decide (¬ c ∈ ws.1))) d with
    | .error e => .error e
    | .ok d1 => filterNotIn cs d1

/-- `Wordle.filter_possible`: the three passes in source order, rebuilding
`self.filtered`. -/
def filter_possible (st : GameState) : Except Err GameState :=
  match filterEquals st.equals st.filtered with
  | .error e => .error e
  | .ok d1 =>
    match filterContains st.contains d1 with
    | .error e => .error e
    | .ok d2 =>
      match filterNotIn st.not_in d2 with
      | .error e => .error e
      | .ok d3 => .ok { st with filtered := d3 }

/-- Models `np.random.choice(keys, p=probs)`: the weighted random draw is
abstracted by an index parameter `r`; numpy raises ValueError when asked to
choose from an empty sequence. -/
def npChoice (keys : List Word) (r : Nat) : Except Err Word :=
  match keys with
  | [] => .error .valueError
  | k :: ks => .ok (((k :: ks).get? (r % (k :: ks).length)).getD k)

/-- `Wordle.make_guess`: normalizes the scores of the remaining candidates to
probabilities (Python raises ZeroDivisionError when the score total of a
nonempty dict is zero) and draws one weighted choice, appending it to the
guess history. -/
def make_guess (st : GameState) (r : Nat) : Except Err (Word × GameState) :=
  match st.filtered with
  | [] => .error .valueError
  | _ :: _ =>
    if (st.filtered.map Prod.snd).sum = 0 then .error .zeroDivisionError
    else
      match npChoice (st.filtered.map Prod.fst) r with
      | .error e => .error e
      | .ok g => .ok (g, { st with guesses := st.guesses ++ [g] })

/-- `Wordle.is_solved`. -/
def is_solved (st : GameState) (guess : Word) : Bool :=
  guess == st.answer

/-- `Wordle.reset_game`. -/
def reset_game (st : GameState) : GameState :=
  { st with
    played := false, solved := false, filtered := st.freq,
    not_in := [], contains := [], equals := [], guesses := [], board := [] }

/-- `Wordle.return_total_moves`: 7 when the bot failed in 6 guesses, the
number of guesses made otherwise. -/
def return_total_moves (st : GameState) : Nat :=
  if st.solved = false ∧ st.guesses.length = 6 then 7 else st.guesses.length

/-- The `for i in range(6)` loop of `Wordle.play`; `sel` abstracts the random
draw of each round, `fuel` counts the remaining iterations. -/
def playLoop (sel : Nat → Nat) : Nat → Nat → GameState → Except Err GameState
  | _, 0, st => .ok st
  | i, fuel + 1, st =>
    match make_guess st (sel i) with
    | .error e => .error e
    | .ok (guess, st1) =>
      match check_word st1 guess with
      | .error e => .error e
      | .ok st2 =>
        match filter_possible st2 with
        | .error e => .error e
        | .ok st3 =>
          if is_solved st3 guess then .ok { st3 with solved := true }
          else playLoop sel (i + 1) fuel st3

/-- `Wordle.play` (console printing omitted): reset when a previous play has
completed, run up to six rounds, mark the session as played and return the
solved flag. -/
def play (st : GameState) (sel : Nat → Nat) : Except Err (GameState × Bool) :=
  match playLoop sel 0 6 (if st.played then reset_game st else st) with
  | .error e => .error e
  | .ok st1 => .ok ({ st1 with played := true }, st1.solved)

/-- One public session operation, for stating frame properties over arbitrary
call sequences. -/
inductive Op where
  | opPlay (sel : Nat → Nat)
  | opMakeGuess (r : Nat)
  | opCheckWord (g : Word)
  | opFilterPossible
  | opResetGame

/-- Run one operation on the session state. -/
def applyOp (st : GameState) : Op → Except Err GameState
  | .opPlay sel =>
    match play st sel with
    | .error e => .error e
    | .ok p => .ok p.1
  | .opMakeGuess r =>
    match make_guess st r with
    | .error e => .error e
    | .ok p => .ok p.2
  | .opCheckWord g => check_word st g
  | .opFilterPossible => filter_possible st
  | .opResetGame => .ok (reset_game st)

/-- Run a sequence of operations, stopping at the first raised exception. -/
def runOps : List Op → GameState → Except Err GameState
  | [], st => .ok st
  | op :: ops, st =>
    match applyOp st op with
    | .error e => .error e
    | .ok st1 => runOps ops st1

/-- The feedback symbol `check_word` produces at position `j` (none when the
position is out of range of either word). -/
def posCode (answer guess : Word) (j : Nat) : Option Square :=
  match answer.get? j, guess.get? j with
  | some t, some g =>
    some (if g = t then .green else if g ∈ answer then .yellow else .gray)
  | _, _ => none

/-- The letter `check_word` records as globally excluded at position `j`, if
any. -/
def grayAt (answer guess : Word) (j : Nat) : Option Char :=
  match answer.get? j, guess.get? j with
  | some t, some g => if g = t then none else if g ∈ answer then none else some g
  | _, _ => none

/-! ## Association-list dict lemmas -/

theorem dlookup_dictSet_self (d : List (Nat × α)) (j : Nat) (v : α) :
    dlookup (dictSet d j v) j = some v := by
  induction d with
  | nil => simp [dictSet, dlookup]
  | cons kv d ih =>
    obtain ⟨k, w⟩ := kv
    by_cases hk : k = j
    · simp [dictSet, hk, dlookup]
    · simp [dictSet, hk, dlookup, ih]

theorem dlookup_dictSet_ne (d : List (Nat × α)) (j : Nat) (v : α) (k0 : Nat)
    (h : ¬ k0 = j) : dlookup (dictSet d j v) k0 = dlookup d k0 := by
  induction d with
  | nil =>
    simp only [dictSet, dlookup]
    rw [if_neg (fun hh => h hh.symm)]
  | cons kv d ih =>
    obtain ⟨k, w⟩ := kv
    by_cases hk : k = j
    · subst hk
      simp only [dictSet, if_pos rfl, dlookup]
      rw [if_neg (fun hh => h hh.symm), if_neg (fun hh => h hh.symm)]
    · simp only [dictSet, if_neg hk, dlookup]
      by_cases hk0 : k = k0
      · rw [if_pos hk0, if_pos hk0]
      · rw [if_neg hk0, if_neg hk0, ih]

theorem dictSet_eq_self (d : List (Nat × α)) (j : Nat) (v : α)
    (h : dlookup d j = some v) : dictSet d j v = d := by
  induction d with
  | nil => simp [dlookup] at h
  | cons kv d ih =>
    obtain ⟨k, w⟩ := kv
    by_cases hk : k = j
    · subst hk
      simp only [dlookup, if_true, eq_self_iff_true, Option.some.injEq] at h
      simp [dictSet, h]
    · simp only [dlookup, if_neg hk] at h
      simp [dictSet, hk, ih h]

theorem dlookup_dictAppend_self (d : List (Nat × List Char)) (j : Nat) (v : Char) :
    dlookup (dictAppend d j v) j = some ((dlookup d j).getD [] ++ [v]) := by
  induction d with
  | nil => simp [dictAppend, dlookup]
  | cons kv d ih =>
    obtain ⟨k, ls⟩ := kv
    by_cases hk : k = j
    · simp [dictAppend, hk, dlookup]
    · simp [dictAppend, hk, dlookup, ih]

theorem dlookup_dictAppend_ne (d : List (Nat × List Char)) (j : Nat) (v : Char)
    (k0 : Nat) (h : ¬ k0 = j) : dlookup (dictAppend d j v) k0 = dlookup d k0 := by
  induction d with
  | nil =>
    simp only [dictAppend, dlookup]
    rw [if_neg (fun hh => h hh.symm)]
  | cons kv d ih =>
    obtain ⟨k, ls⟩ := kv
    by_cases hk : k = j
    · subst hk
      simp only [dictAppend, if_pos rfl, dlookup]
      rw [if_neg (fun hh => h hh.symm), if_neg (fun hh => h hh.symm)]
    · simp only [dictAppend, if_neg hk, dlookup]
      by_cases hk0 : k = k0
      · rw [if_pos hk0, if_pos hk0]
      · rw [if_neg hk0, if_neg hk0, ih]

theorem cList_dictAppend_self (d : List (Nat × List Char)) (j : Nat) (v : Char) :
    cList (dictAppend d j v) j = cList d j ++ [v] := by
  simp [cList, dlookup_dictAppend_self]

theorem cList_dictAppend_ne (d : List (Nat × List Char)) (j : Nat) (v : Char)
    (k0 : Nat) (h : ¬ k0 = j) : cList (dictAppend d j v) k0 = cList d k0 := by
  simp [cList, dlookup_dictAppend_ne d j v k0 h]

theorem forall_mem_dictSet {P : Nat × α → Prop} (d : List (Nat × α)) (j : Nat) (v : α)
    (h : ∀ kc ∈ d, P kc) (hv : P (j, v)) : ∀ kc ∈ dictSet d j v, P kc := by
  induction d with
  | nil =>
    intro kc hkc
    simp only [dictSet, List.mem_singleton] at hkc
    subst hkc; exact hv
  | cons kw d ih =>
    obtain ⟨k, w⟩ := kw
    by_cases hk : k = j
    · subst hk
      intro kc hkc
      simp only [dictSet, if_pos rfl] at hkc
      rcases List.mem_cons.mp hkc with h1 | h2
      · subst h1; exact hv
      · exact h _ (List.mem_cons_of_mem _ h2)
    · intro kc hkc
      simp only [dictSet, if_neg hk] at hkc
      rcases List.mem_cons.mp hkc with h1 | h2
      · subst h1; exact h _ (List.mem_cons_self _ _)
      · exact ih (fun kc hkc => h _ (List.mem_cons_of_mem _ hkc)) _ h2

theorem forall_mem_dictAppend {P : Nat × List Char → Prop} (d : List (Nat × List Char))
    (j : Nat) (v : Char) (h : ∀ kc ∈ d, P kc)
    (hgrow : ∀ ls, P (j, ls) → P (j, ls ++ [v])) (hnew : P (j, [v])) :
    ∀ kc ∈ dictAppend d j v, P kc := by
  induction d with
  | nil =>
    intro kc hkc
    simp only [dictAppend, List.mem_singleton] at hkc
    subst hkc; exact hnew
  | cons kw d ih =>
    obtain ⟨k, ls⟩ := kw
    by_cases hk : k = j
    · subst hk
      intro kc hkc
      simp only [dictAppend, if_pos rfl] at hkc
      rcases List.mem_cons.mp hkc with h1 | h2
      · subst h1; exact hgrow _ (h _ (List.mem_cons_self _ _))
      · exact h _ (List.mem_cons_of_mem _ h2)
    · intro kc hkc
      simp only [dictAppend, if_neg hk] at hkc
      rcases List.mem_cons.mp hkc with h1 | h2
      · subst h1; exact h _ (List.mem_cons_self _ _)
      · exact ih (fun kc hkc => h _ (List.mem_cons_of_mem _ hkc)) _ h2

/-! ## Constraint consistency with the answer -/

/-- Every fixed-letter constraint agrees with the answer. -/
def equalsOk (answer : Word) (eqs : List (Nat × Char)) : Prop :=
  ∀ kc ∈ eqs, answer.get? kc.1 = some kc.2

/-- Every misplaced-letter constraint names an in-range position and a letter
of the answer that does not sit at that position. -/
def containsOk (answer : Word) (cts : List (Nat × List Char)) : Prop :=
  ∀ kls ∈ cts, kls.1 < answer.length ∧
    ∀ c ∈ kls.2, c ∈ answer ∧ ¬ answer.get? kls.1 = some c

/-- Every excluded letter is indeed absent from the answer. -/
def notInOk (answer : Word) (ns : List Char) : Prop :=
  ∀ c ∈ ns, ¬ c ∈ answer

/-- The constraint stores of a session never rule out its own answer. -/
def answerConsistent (st : GameState) : Prop :=
  equalsOk st.answer st.equals ∧ containsOk st.answer st.contains ∧
    notInOk st.answer st.not_in

/-- Unfolding lemma for `checkPositions` at an in-range position. -/
theorem checkPositions_cons (answer guess : Word) (j : Nat) (js : List Nat)
    (acc : CheckAcc) (tLet gLet : Char)
    (hga : answer.get? j = some tLet) (hgg : guess.get? j = some gLet) :
    checkPositions answer guess (j :: js) acc =
      if gLet = tLet then
        checkPositions answer guess js
          ⟨acc.bd ++ [.green], dictSet acc.equals j gLet, acc.contains, acc.not_in⟩
      else if gLet ∈ answer then
        checkPositions answer guess js
          ⟨acc.bd ++ [.yellow], acc.equals, dictAppend acc.contains j gLet, acc.not_in⟩
      else
        checkPositions answer guess js
          ⟨acc.bd ++ [.gray], acc.equals, acc.contains, acc.not_in ++ [gLet]⟩ := by
  simp only [checkPositions, hga, hgg]

/-- Unfolding lemma for `checkPositions` when the guess is too short. -/
theorem checkPositions_cons_err (answer guess : Word) (j : Nat) (js : List Nat)
    (acc : CheckAcc) (hgg : guess.get? j = none) :
    checkPositions answer guess (j :: js) acc = .error Err.indexError := by
  cases hga : answer.get? j with
  | none => simp only [checkPositions, hga, hgg]
  | some t => simp only [checkPositions, hga, hgg]

theorem checkPositions_consistent (answer guess : Word) :
    ∀ (js : List Nat) (acc acc' : CheckAcc),
    checkPositions answer guess js acc = .ok acc' →
    equalsOk answer acc.equals → containsOk answer acc.contains →
    notInOk answer acc.not_in →
    equalsOk answer acc'.equals ∧ containsOk answer acc'.contains ∧
      notInOk answer acc'.not_in := by
  intro js
  induction js with
  | nil =>
    intro acc acc' h he hc hn
    simp only [checkPositions, Except.ok.injEq] at h
    subst h; exact ⟨he, hc, hn⟩
  | cons j js ih =>
    intro acc acc' h he hc hn
    cases hga : answer.get? j with
    | none =>
      cases hgg : guess.get? j with
      | none => rw [checkPositions_cons_err answer guess j js acc hgg] at h; simp at h
      | some gLet =>
        simp only [checkPositions, hga, hgg] at h
        exact Except.noConfusion h
    | some tLet =>
      cases hgg : guess.get? j with
      | none => rw [checkPositions_cons_err answer guess j js acc hgg] at h; simp at h
      | some gLet =>
        rw [checkPositions_cons answer guess j js acc tLet gLet hga hgg] at h
        by_cases hgt : gLet = tLet
        · rw [if_pos hgt] at h
          refine ih _ _ h ?_ hc hn
          exact forall_mem_dictSet _ _ _ he (by subst hgt; exact hga)
        · rw [if_neg hgt] at h
          by_cases hmem : gLet ∈ answer
          · rw [if_pos hmem] at h
            have hjlen : j < answer.length := by
              by_contra hcon
              rw [List.get?_eq_none.mpr (Nat.le_of_not_lt hcon)] at hga
              exact Option.noConfusion hga
            have hok : gLet ∈ answer ∧ ¬ answer.get? j = some gLet := by
              refine ⟨hmem, ?_⟩
              rw [hga]
              intro hh
              exact hgt (Option.some.inj hh).symm
            refine ih _ _ h he ?_ hn
            refine forall_mem_dictAppend _ _ _ hc ?_ ?_
            · intro ls hls
              refine ⟨hls.1, ?_⟩
              intro c hcmem
              rcases List.mem_append.mp hcmem with h1 | h2
              · exact hls.2 c h1
              · rw [List.mem_singleton] at h2
                subst h2
                exact hok
            · refine ⟨hjlen, ?_⟩
              intro c hcmem
              rw [List.mem_singleton] at hcmem
              subst hcmem
              exact hok
          · rw [if_neg hmem] at h
            refine ih _ _ h he hc ?_
            intro c hcmem
            rcases List.mem_append.mp hcmem with h1 | h2
            · exact hn c h1
            · rw [List.mem_singleton] at h2
              subst h2; exact hmem

theorem checkPositions_ok (answer guess : Word) :
    ∀ (js : List Nat) (acc : CheckAcc),
    (∀ j ∈ js, j < answer.length ∧ j < guess.length) →
    ∃ acc', checkPositions answer guess js acc = .ok acc' := by
  intro js
  induction js with
  | nil => intro acc _; exact ⟨acc, rfl⟩
  | cons j js ih =>
    intro acc hin
    obtain ⟨hja, hjg⟩ := hin j (List.mem_cons_self _ _)
    have hga : answer.get? j = some (answer.get ⟨j, hja⟩) :=
      List.get?_eq_some.mpr ⟨hja, rfl⟩
    have hgg : guess.get? j = some (guess.get ⟨j, hjg⟩) :=
      List.get?_eq_some.mpr ⟨hjg, rfl⟩
    have htail : ∀ i ∈ js, i < answer.length ∧ i < guess.length :=
      fun i hi => hin i (List.mem_cons_of_mem _ hi)
    rw [checkPositions_cons answer guess j js acc _ _ hga hgg]
    by_cases h1 : guess.get ⟨j, hjg⟩ = answer.get ⟨j, hja⟩
    · rw [if_pos h1]; exact ih _ htail
    · rw [if_neg h1]
      by_cases h2 : guess.get ⟨j, hjg⟩ ∈ answer
      · rw [if_pos h2]; exact ih _ htail
      · rw [if_neg h2]; exact ih _ htail

theorem checkPositions_append (answer guess : Word) (js1 js2 : List Nat) :
    ∀ acc, checkPositions answer guess (js1 ++ js2) acc =
      match checkPositions answer guess js1 acc with
      | .error e => .error e
      | .ok acc1 => checkPositions answer guess js2 acc1 := by
  induction js1 with
  | nil => intro acc; simp [checkPositions]
  | cons j js ih =>
    intro acc
    cases hga : answer.get? j with
    | none =>
      cases hgg : guess.get? j with
      | none =>
        rw [List.cons_append, checkPositions_cons_err _ _ _ _ _ hgg,
          checkPositions_cons_err _ _ _ _ _ hgg]
      | some g =>
        rw [List.cons_append]
        simp only [checkPositions, hga, hgg]
    | some t =>
      cases hgg : guess.get? j with
      | none =>
        rw [List.cons_append, checkPositions_cons_err _ _ _ _ _ hgg,
          checkPositions_cons_err _ _ _ _ _ hgg]
      | some g =>
        rw [List.cons_append, checkPositions_cons _ _ _ _ _ _ _ hga hgg,
          checkPositions_cons _ _ _ _ _ _ _ hga hgg]
        by_cases h1 : g = t
        · rw [if_pos h1, if_pos h1, ih]
        · rw [if_neg h1, if_neg h1]
          by_cases h2 : g ∈ answer
          · rw [if_pos h2, if_pos h2, ih]
          · rw [if_neg h2, if_neg h2, ih]

theorem checkPositions_range_err_aux (answer guess : Word) :
    ∀ (n : Nat), guess.length < n → n ≤ answer.length →
    ∀ acc, checkPositions answer guess (List.range n) acc = .error Err.indexError := by
  intro n
  induction n with
  | zero => intro h; exact absurd h (Nat.not_lt_zero _)
  | succ m ih =>
    intro hgl hle acc
    rw [List.range_succ, checkPositions_append]
    by_cases hm : guess.length < m
    · rw [ih hm (Nat.le_of_succ_le hle) acc]
    · have hme : m = guess.length :=
        Nat.le_antisymm (Nat.le_of_not_lt hm) (Nat.le_of_lt_succ hgl)
      have hin : ∀ j ∈ List.range m, j < answer.length ∧ j < guess.length := by
        intro j hj
        have hjm : j < m := List.mem_range.mp hj
        exact ⟨Nat.lt_of_lt_of_le hjm (Nat.le_of_succ_le hle), hme ▸ hjm⟩
      obtain ⟨acc1, hok⟩ := checkPositions_ok answer guess (List.range m) acc hin
      rw [hok]
      exact checkPositions_cons_err answer guess m [] acc1
        (List.get?_eq_none.mpr (le_of_eq hme.symm))

/-- `check_word` on a guess shorter than the answer raises IndexError. -/
theorem check_word_err (st : GameState) (guess : Word) (hs : st.solved = false)
    (h : guess.length < st.answer.length) :
    check_word st guess = .error Err.indexError := by
  have hns : ¬ st.solved = true := by rw [hs]; exact Bool.false_ne_true
  rw [check_word, if_neg hns,
    checkPositions_range_err_aux st.answer guess st.answer.length h (Nat.le_refl _)]

/-- `check_word` on a guess at least as long as the answer succeeds and only
touches the constraint stores and the board. -/
theorem check_word_ok (st : GameState) (guess : Word)
    (hg : st.answer.length ≤ guess.length) :
    ∃ st1, check_word st guess = .ok st1 ∧ st1.answer = st.answer ∧
      st1.freq = st.freq ∧ st1.filtered = st.filtered ∧ st1.solved = st.solved ∧
      st1.played = st.played ∧ st1.guesses = st.guesses ∧
      (answerConsistent st → answerConsistent st1) := by
  by_cases hs : st.solved
  · refine ⟨st, ?_, rfl, rfl, rfl, rfl, rfl, rfl, fun hcons => hcons⟩
    rw [check_word, if_pos hs]
  · have hin : ∀ j ∈ List.range st.answer.length,
        j < st.answer.length ∧ j < guess.length := by
      intro j hj
      have hjr := List.mem_range.mp hj
      exact ⟨hjr, Nat.lt_of_lt_of_le hjr hg⟩
    obtain ⟨acc', hok⟩ := checkPositions_ok st.answer guess (List.range st.answer.length)
      ⟨[], st.equals, st.contains, st.not_in⟩ hin
    refine ⟨{ st with
        equals := acc'.equals, contains := acc'.contains,
        not_in := acc'.not_in, board := st.board ++ [acc'.bd] },
      ?_, rfl, rfl, rfl, rfl, rfl, rfl, ?_⟩
    · rw [check_word, if_neg hs, hok]
    · intro hcons
      obtain ⟨he, hc, hn⟩ := hcons
      have hres := checkPositions_consistent st.answer guess
        (List.range st.answer.length) _ _ hok he hc hn
      exact ⟨hres.1, hres.2.1, hres.2.2⟩

/-! ## Filter lemmas -/

theorem pyFilter_total {α : Type} (p : α → Except Err Bool) (q : α → Bool) :
    ∀ (l : List α), (∀ a ∈ l, p a = .ok (q a)) →
    pyFilter p l = .ok (l.filter q) := by
  intro l
  induction l with
  | nil => intro _; rfl
  | cons a l ih =>
    intro h
    have ha := h a (List.mem_cons_self _ _)
    have hl := ih (fun b hb => h b (List.mem_cons_of_mem _ hb))
    simp only [pyFilter, ha, hl, List.filter_cons]

theorem filterEquals_ok (answer : Word) :
    ∀ (eqs : List (Nat × Char)) (d : List (Word × Score)),
    equalsOk answer eqs →
    (∀ p ∈ d, (p.1 : Word).length = answer.length) →
    ∃ d1, filterEquals eqs d = .ok d1 ∧ List.Sublist d1 d ∧
      ∀ s : Score, (answer, s) ∈ d → (answer, s) ∈ d1 := by
  intro eqs
  induction eqs with
  | nil =>
    intro d _ _
    exact ⟨d, rfl, List.Sublist.refl d, fun s hs => hs⟩
  | cons kc eqs ih =>
    intro d he hlen
    obtain ⟨k, c⟩ := kc
    have hkc : answer.get? k = some c := he (k, c) (List.mem_cons_self _ _)
    have hklen : k < answer.length := by
      by_contra hcon
      rw [List.get?_eq_none.mpr (Nat.le_of_not_lt hcon)] at hkc
      exact Option.noConfusion hkc
    have htot : ∀ ws ∈ d, (match pyIndex ws.1 k with
        | Except.error e => Except.error e
        | Except.ok ch => Except.ok (decide (ch = c))) =
        (Except.ok (decide ((ws.1 : Word).get? k = some c)) : Except Err Bool) := by
      intro ws hws
      have hwk : k < (ws.1 : Word).length := by rw [hlen ws hws]; exact hklen
      cases hget : (ws.1 : Word).get? k with
      | none => exact absurd (List.get?_eq_none.mp hget) (Nat.not_le_of_lt hwk)
      | some ch => simp only [pyIndex, hget, Option.some.injEq]
    have hrun := pyFilter_total _ _ d htot
    have hstep : filterEquals ((k, c) :: eqs) d =
        filterEquals eqs (d.filter fun ws => decide ((ws.1 : Word).get? k = some c)) := by
      simp only [filterEquals, hrun]
    have hsub : List.Sublist (d.filter fun ws => decide ((ws.1 : Word).get? k = some c)) d :=
      List.filter_sublist d
    have hlen1 : ∀ p ∈ d.filter (fun ws => decide ((ws.1 : Word).get? k = some c)),
        (p.1 : Word).length = answer.length :=
      fun p hp => hlen p (hsub.subset hp)
    obtain ⟨d1, hrun1, hsub1, hkeep1⟩ :=
      ih _ (fun kc hkc2 => he kc (List.mem_cons_of_mem _ hkc2)) hlen1
    refine ⟨d1, by rw [hstep]; exact hrun1, hsub1.trans hsub, ?_⟩
    intro s hs
    refine hkeep1 s (List.mem_filter.mpr ⟨hs, ?_⟩)
    simp only [decide_eq_true_eq]
    exact hkc

theorem filterLets_ok (answer : Word) (k : Nat) (hklen : k < answer.length) :
    ∀ (cs : List Char) (d : List (Word × Score)),
    (∀ c ∈ cs, c ∈ answer ∧ ¬ answer.get? k = some c) →
    (∀ p ∈ d, (p.1 : Word).length = answer.length) →
    ∃ d1, filterLets k cs d = .ok d1 ∧ List.Sublist d1 d ∧
      ∀ s : Score, (answer, s) ∈ d → (answer, s) ∈ d1 := by
  intro cs
  induction cs with
  | nil =>
    intro d _ _
    exact ⟨d, rfl, List.Sublist.refl d, fun s hs => hs⟩
  | cons c cs ih =>
    intro d hcs hlen
    obtain ⟨hcmem, hcne⟩ := hcs c (List.mem_cons_self _ _)
    have htot : ∀ ws ∈ d, (if c ∈ (ws.1 : Word) then
        match pyIndex ws.1 k with
        | Except.error e => Except.error e
        | Except.ok ch => Except.ok (decide (¬ ch = c))
        else Except.ok false) =
        (Except.ok (decide (c ∈ (ws.1 : Word) ∧ ¬ (ws.1 : Word).get? k = some c)) :
          Except Err Bool) := by
      intro ws hws
      by_cases hcw : c ∈ (ws.1 : Word)
      · have hwk : k < (ws.1 : Word).length := by rw [hlen ws hws]; exact hklen
        cases hget : (ws.1 : Word).get? k with
        | none => exact absurd (List.get?_eq_none.mp hget) (Nat.not_le_of_lt hwk)
        | some ch =>
          rw [if_pos hcw]
          simp only [pyIndex, hget, Option.some.injEq, hcw, true_and]
      · rw [if_neg hcw]
        have hnand : ¬ (c ∈ (ws.1 : Word) ∧ ¬ (ws.1 : Word).get? k = some c) :=
          fun hand => hcw hand.1
        rw [decide_eq_false hnand]
    have hrun := pyFilter_total _ _ d htot
    have hstep : filterLets k (c :: cs) d = filterLets k cs
        (d.filter fun ws =>
          decide (c ∈ (ws.1 : Word) ∧ ¬ (ws.1 : Word).get? k = some c)) := by
      simp only [filterLets, hrun]
    have hsub : List.Sublist (d.filter fun ws =>
        decide (c ∈ (ws.1 : Word) ∧ ¬ (ws.1 : Word).get? k = some c)) d :=
      List.filter_sublist d
    have hlen1 : ∀ p ∈ d.filter (fun ws =>
        decide (c ∈ (ws.1 : Word) ∧ ¬ (ws.1 : Word).get? k = some c)),
        (p.1 : Word).length = answer.length :=
      fun p hp => hlen p (hsub.subset hp)
    obtain ⟨d1, hrun1, hsub1, hkeep1⟩ :=
      ih _ (fun c0 hc0 => hcs c0 (List.mem_cons_of_mem _ hc0)) hlen1
    refine ⟨d1, by rw [hstep]; exact hrun1, hsub1.trans hsub, ?_⟩
    intro s hs
    refine hkeep1 s (List.mem_filter.mpr ⟨hs, ?_⟩)
    simp only [decide_eq_true_eq]
    exact ⟨hcmem, hcne⟩

theorem filterContains_ok (answer : Word) :
    ∀ (cts : List (Nat × List Char)) (d : List (Word × Score)),
    containsOk answer cts →
    (∀ p ∈ d, (p.1 : Word).length = answer.length) →
    ∃ d1, filterContains cts d = .ok d1 ∧ List.Sublist d1 d ∧
      ∀ s : Score, (answer, s) ∈ d → (answer, s) ∈ d1 := by
  intro cts
  induction cts with
  | nil =>
    intro d _ _
    exact ⟨d, rfl, List.Sublist.refl d, fun s hs => hs⟩
  | cons kls cts ih =>
    intro d hc hlen
    obtain ⟨k, ls⟩ := kls
    obtain ⟨hklen, hls⟩ := hc (k, ls) (List.mem_cons_self _ _)
    obtain ⟨d1, hrun1, hsub1, hkeep1⟩ := filterLets_ok answer k hklen ls d hls hlen
    have hlen1 : ∀ p ∈ d1, (p.1 : Word).length = answer.length :=
      fun p hp => hlen p (hsub1.subset hp)
    obtain ⟨d2, hrun2, hsub2, hkeep2⟩ :=
      ih _ (fun kls2 hk2 => hc kls2 (List.mem_cons_of_mem _ hk2)) hlen1
    refine ⟨d2, ?_, hsub2.trans hsub1, fun s hs => hkeep2 s (hkeep1 s hs)⟩
    simp only [filterContains, hrun1]
    exact hrun2

theorem filterNotIn_ok (answer : Word) :
    ∀ (ns : List Char) (d : List (Word × Score)),
    notInOk answer ns →
    ∃ d1, filterNotIn ns d = .ok d1 ∧ List.Sublist d1 d ∧
      ∀ s : Score, (answer, s) ∈ d → (answer, s) ∈ d1 := by
  intro ns
  induction ns with
  | nil =>
    intro d _
    exact ⟨d, rfl, List.Sublist.refl d, fun s hs => hs⟩
  | cons c ns ih =>
    intro d hn
    have htot : ∀ ws ∈ d, (Except.ok (decide (¬ c ∈ (ws.1 : Word))) :
        Except Err Bool) = .ok (decide (¬ c ∈ (ws.1 : Word))) :=
      fun ws _ => rfl
    have hrun := pyFilter_total _ _ d htot
    have hsub : List.Sublist (d.filter fun ws => decide (¬ c ∈ (ws.1 : Word))) d :=
      List.filter_sublist d
    obtain ⟨d1, hrun1, hsub1, hkeep1⟩ :=
      ih _ (fun c0 hc0 => hn c0 (List.mem_cons_of_mem _ hc0))
    refine ⟨d1, ?_, hsub1.trans hsub, ?_⟩
    · simp only [filterNotIn, hrun]
      exact hrun1
    · intro s hs
      refine hkeep1 s (List.mem_filter.mpr ⟨hs, ?_⟩)
      simp only [decide_eq_true_eq]
      exact hn c (List.mem_cons_self _ _)

/-- `filter_possible` succeeds on consistent constraints, shrinks the
candidate dict to a sublist, keeps the answer, and leaves every other field
unchanged. -/
theorem filter_possible_ok (st : GameState)
    (hcons : answerConsistent st)
    (hlen : ∀ p ∈ st.filtered, (p.1 : Word).length = st.answer.length) :
    ∃ st2, filter_possible st = .ok st2 ∧
      List.Sublist st2.filtered st.filtered ∧
      (∀ s : Score, (st.answer, s) ∈ st.filtered → (st.answer, s) ∈ st2.filtered) ∧
      st2.answer = st.answer ∧ st2.freq = st.freq ∧ st2.equals = st.equals ∧
      st2.contains = st.contains ∧ st2.not_in = st.not_in ∧
      st2.solved = st.solved ∧ st2.played = st.played ∧
      st2.guesses = st.guesses ∧ st2.board = st.board := by
  obtain ⟨he, hc, hn⟩ := hcons
  obtain ⟨d1, h1, hsub1, hkeep1⟩ := filterEquals_ok st.answer st.equals st.filtered he hlen
  have hlen1 : ∀ p ∈ d1, (p.1 : Word).length = st.answer.length :=
    fun p hp => hlen p (hsub1.subset hp)
  obtain ⟨d2, h2, hsub2, hkeep2⟩ := filterContains_ok st.answer st.contains d1 hc hlen1
  obtain ⟨d3, h3, hsub3, hkeep3⟩ := filterNotIn_ok st.answer st.not_in d2 hn
  refine ⟨{ st with filtered := d3 },
    ?_, ?_, ?_, rfl, rfl, rfl, rfl, rfl, rfl, rfl, rfl, rfl⟩
  · simp only [filter_possible, h1, h2, h3]
  · exact (hsub3.trans hsub2).trans hsub1
  · exact fun s hs => hkeep3 s (hkeep2 s (hkeep1 s hs))

/-! ## Precise characterization of `checkPositions` -/

theorem checkPositions_precise (answer guess : Word) :
    ∀ (js : List Nat) (acc : CheckAcc), js.Nodup →
    (∀ j ∈ js, j < answer.length ∧ j < guess.length) →
    ∃ acc', checkPositions answer guess js acc = .ok acc' ∧
      acc'.bd.length = acc.bd.length + js.length ∧
      (∀ i, i < acc.bd.length → acc'.bd.get? i = acc.bd.get? i) ∧
      (∀ i, acc'.bd.get? (acc.bd.length + i) =
        (js.get? i).bind (posCode answer guess)) ∧
      (∀ j g, j ∈ js → guess.get? j = some g →
        posCode answer guess j = some Square.green →
        dlookup acc'.equals j = some g) ∧
      (∀ j, (j ∈ js → ¬ posCode answer guess j = some Square.green) →
        dlookup acc'.equals j = dlookup acc.equals j) ∧
      (∀ j g, j ∈ js → guess.get? j = some g →
        posCode answer guess j = some Square.yellow →
        cList acc'.contains j = cList acc.contains j ++ [g]) ∧
      (∀ j, (j ∈ js → ¬ posCode answer guess j = some Square.yellow) →
        cList acc'.contains j = cList acc.contains j) ∧
      acc'.not_in = acc.not_in ++ js.filterMap (grayAt answer guess) := by
  intro js
  induction js with
  | nil =>
    intro acc _ _
    refine ⟨acc, rfl, rfl, fun i _ => rfl, ?_, ?_, fun j _ => rfl, ?_,
      fun j _ => rfl, by simp⟩
    · intro i
      rw [List.get?_eq_none.mpr (Nat.le_add_right _ _)]
      rfl
    · intro j g hj
      exact absurd hj (List.not_mem_nil j)
    · intro j g hj
      exact absurd hj (List.not_mem_nil j)
  | cons j js ih =>
    intro acc hnd hin
    obtain ⟨hja, hjg⟩ := hin j (List.mem_cons_self _ _)
    have hjnot : j ∉ js := (List.nodup_cons.mp hnd).1
    have hnd2 : js.Nodup := (List.nodup_cons.mp hnd).2
    have htail : ∀ i ∈ js, i < answer.length ∧ i < guess.length :=
      fun i hi => hin i (List.mem_cons_of_mem _ hi)
    cases hga : answer.get? j with
    | none => exact absurd (List.get?_eq_none.mp hga) (Nat.not_le_of_lt hja)
    | some tLet =>
    cases hgg : guess.get? j with
    | none => exact absurd (List.get?_eq_none.mp hgg) (Nat.not_le_of_lt hjg)
    | some gLet =>
    have hpos : posCode answer guess j =
        some (if gLet = tLet then Square.green
          else if gLet ∈ answer then Square.yellow else Square.gray) := by
      simp only [posCode, hga, hgg]
    rw [checkPositions_cons answer guess j js acc tLet gLet hga hgg]
    by_cases h1 : gLet = tLet
    · -- green position
      rw [if_pos h1]
      have hposg : posCode answer guess j = some Square.green := by
        rw [hpos, if_pos h1]
      obtain ⟨acc', hrun, hlen, hold, hat, hgrn, heqs, hylw, hcts, hni⟩ :=
        ih ⟨acc.bd ++ [Square.green], dictSet acc.equals j gLet,
          acc.contains, acc.not_in⟩ hnd2 htail
      have hl1 : (acc.bd ++ [Square.green]).length = acc.bd.length + 1 := by
        simp
      refine ⟨acc', hrun, ?_, ?_, ?_, ?_, ?_, ?_, ?_, ?_⟩
      · rw [hlen]
        show (acc.bd ++ [Square.green]).length + js.length = _
        rw [hl1, List.length_cons]
        omega
      · intro i hi
        have h2 := hold i (by rw [hl1]; omega)
        rw [h2]
        exact List.get?_append hi
      · intro i
        cases i with
        | zero =>
          have h2 := hold acc.bd.length (by rw [hl1]; omega)
          have h2bd : acc'.bd.get? acc.bd.length = some Square.green := by
            rw [h2]
            exact List.get?_concat_length acc.bd Square.green
          rw [Nat.add_zero, h2bd,
            show (((j :: js).get? 0).bind (posCode answer guess)) =
              posCode answer guess j from rfl,
            hposg]
        | succ i2 =>
          have hrw : acc.bd.length + (i2 + 1) =
              (acc.bd ++ [Square.green]).length + i2 := by
            rw [hl1]; omega
          rw [hrw]
          exact hat i2
      · intro j0 g hj0 hg hcode
        rcases List.mem_cons.mp hj0 with hj0e | hj0m
        · rw [hj0e]
          rw [hj0e] at hg
          have hgl : gLet = g := Option.some_inj.mp (hgg ▸ hg)
          have hbase : dlookup acc'.equals j = some gLet :=
            (heqs j (fun hmem => absurd hmem hjnot)).trans
              (dlookup_dictSet_self acc.equals j gLet)
          exact hgl ▸ hbase
        · exact hgrn j0 g hj0m hg hcode
      · intro j0 himp
        by_cases hj0 : j0 = j
        · have hmem : j0 ∈ j :: js := by rw [hj0]; exact List.mem_cons_self _ _
          exact absurd (by rw [hj0]; exact hposg) (himp hmem)
        · exact (heqs j0 (fun hmem => himp (List.mem_cons_of_mem _ hmem))).trans
            (dlookup_dictSet_ne acc.equals j gLet j0 hj0)
      · intro j0 g hj0 hg hcode
        rcases List.mem_cons.mp hj0 with hj0e | hj0m
        · rw [hj0e, hposg] at hcode
          exact absurd (Option.some_inj.mp hcode) (by decide)
        · exact hylw j0 g hj0m hg hcode
      · intro j0 himp
        exact hcts j0 (fun hmem => himp (List.mem_cons_of_mem _ hmem))
      · rw [hni]
        have hgray : grayAt answer guess j = none := by
          simp only [grayAt, hga, hgg]
          rw [if_pos h1]
        rw [List.filterMap_cons_none hgray]
    · rw [if_neg h1]
      by_cases h2 : gLet ∈ answer
      · -- yellow position
        rw [if_pos h2]
        have hposy : posCode answer guess j = some Square.yellow := by
          rw [hpos, if_neg h1, if_pos h2]
        obtain ⟨acc', hrun, hlen, hold, hat, hgrn, heqs, hylw, hcts, hni⟩ :=
          ih ⟨acc.bd ++ [Square.yellow], acc.equals,
            dictAppend acc.contains j gLet, acc.not_in⟩ hnd2 htail
        have hl1 : (acc.bd ++ [Square.yellow]).length = acc.bd.length + 1 := by
          simp
        refine ⟨acc', hrun, ?_, ?_, ?_, ?_, ?_, ?_, ?_, ?_⟩
        · rw [hlen]
          show (acc.bd ++ [Square.yellow]).length + js.length = _
          rw [hl1, List.length_cons]
          omega
        · intro i hi
          have h3 := hold i (by rw [hl1]; omega)
          rw [h3]
          exact List.get?_append hi
        · intro i
          cases i with
          | zero =>
            have h3 := hold acc.bd.length (by rw [hl1]; omega)
            have h3bd : acc'.bd.get? acc.bd.length = some Square.yellow := by
              rw [h3]
              exact List.get?_concat_length acc.bd Square.yellow
            rw [Nat.add_zero, h3bd,
              show (((j :: js).get? 0).bind (posCode answer guess)) =
                posCode answer guess j from rfl,
              hposy]
          | succ i2 =>
            have hrw : acc.bd.length + (i2 + 1) =
                (acc.bd ++ [Square.yellow]).length + i2 := by
              rw [hl1]; omega
            rw [hrw]
            exact hat i2
        · intro j0 g hj0 hg hcode
          rcases List.mem_cons.mp hj0 with hj0e | hj0m
          · rw [hj0e, hposy] at hcode
            exact absurd (Option.some_inj.mp hcode) (by decide)
          · exact hgrn j0 g hj0m hg hcode
        · intro j0 himp
          exact heqs j0 (fun hmem => himp (List.mem_cons_of_mem _ hmem))
        · intro j0 g hj0 hg hcode
          rcases List.mem_cons.mp hj0 with hj0e | hj0m
          · rw [hj0e]
            rw [hj0e] at hg
            have hgl : gLet = g := Option.some_inj.mp (hgg ▸ hg)
            have hbase : cList acc'.contains j = cList acc.contains j ++ [gLet] :=
              (hcts j (fun hmem => absurd hmem hjnot)).trans
                (cList_dictAppend_self acc.contains j gLet)
            exact hgl ▸ hbase
          · have hj0ne : ¬ j0 = j := fun hh => hjnot (hh ▸ hj0m)
            exact (hylw j0 g hj0m hg hcode).trans
              (by rw [cList_dictAppend_ne acc.contains j gLet j0 hj0ne])
        · intro j0 himp
          by_cases hj0 : j0 = j
          · have hmem : j0 ∈ j :: js := by rw [hj0]; exact List.mem_cons_self _ _
            exact absurd (by rw [hj0]; exact hposy) (himp hmem)
          · exact (hcts j0 (fun hmem => himp (List.mem_cons_of_mem _ hmem))).trans
              (cList_dictAppend_ne acc.contains j gLet j0 hj0)
        · rw [hni]
          have hgray : grayAt answer guess j = none := by
            simp only [grayAt, hga, hgg]
            rw [if_neg h1, if_pos h2]
          rw [List.filterMap_cons_none hgray]
      · -- gray position
        rw [if_neg h2]
        have hposn : posCode answer guess j = some Square.gray := by
          rw [hpos, if_neg h1, if_neg h2]
        obtain ⟨acc', hrun, hlen, hold, hat, hgrn, heqs, hylw, hcts, hni⟩ :=
          ih ⟨acc.bd ++ [Square.gray], acc.equals,
            acc.contains, acc.not_in ++ [gLet]⟩ hnd2 htail
        have hl1 : (acc.bd ++ [Square.gray]).length = acc.bd.length + 1 := by
          simp
        refine ⟨acc', hrun, ?_, ?_, ?_, ?_, ?_, ?_, ?_, ?_⟩
        · rw [hlen]
          show (acc.bd ++ [Square.gray]).length + js.length = _
          rw [hl1, List.length_cons]
          omega
        · intro i hi
          have h3 := hold i (by rw [hl1]; omega)
          rw [h3]
          exact List.get?_append hi
        · intro i
          cases i with
          | zero =>
            have h3 := hold acc.bd.length (by rw [hl1]; omega)
            have h3bd : acc'.bd.get? acc.bd.length = some Square.gray := by
              rw [h3]
              exact List.get?_concat_length acc.bd Square.gray
            rw [Nat.add_zero, h3bd,
              show (((j :: js).get? 0).bind (posCode answer guess)) =
                posCode answer guess j from rfl,
              hposn]
          | succ i2 =>
            have hrw : acc.bd.length + (i2 + 1) =
                (acc.bd ++ [Square.gray]).length + i2 := by
              rw [hl1]; omega
            rw [hrw]
            exact hat i2
        · intro j0 g hj0 hg hcode
          rcases List.mem_cons.mp hj0 with hj0e | hj0m
          · rw [hj0e, hposn] at hcode
            exact absurd (Option.some_inj.mp hcode) (by decide)
          · exact hgrn j0 g hj0m hg hcode
        · intro j0 himp
          exact heqs j0 (fun hmem => himp (List.mem_cons_of_mem _ hmem))
        · intro j0 g hj0 hg hcode
          rcases List.mem_cons.mp hj0 with hj0e | hj0m
          · rw [hj0e, hposn] at hcode
            exact absurd (Option.some_inj.mp hcode) (by decide)
          · exact hylw j0 g hj0m hg hcode
        · intro j0 himp
          exact hcts j0 (fun hmem => himp (List.mem_cons_of_mem _ hmem))
        · rw [hni]
          have hgray : grayAt answer guess j = some gLet := by
            simp only [grayAt, hga, hgg]
            rw [if_neg h1, if_neg h2]
          rw [List.filterMap_cons_some hgray, List.append_assoc,
            List.singleton_append]

/-- Re-absorbing feedback whose Exact letters are already recorded leaves the
`equals` store literally unchanged. -/
theorem checkPositions_equals_stable (answer guess : Word) :
    ∀ (js : List Nat) (acc acc' : CheckAcc),
    checkPositions answer guess js acc = .ok acc' →
    (∀ j g, j ∈ js → guess.get? j = some g →
      posCode answer guess j = some Square.green → dlookup acc.equals j = some g) →
    acc'.equals = acc.equals := by
  intro js
  induction js with
  | nil =>
    intro acc acc' h _
    simp only [checkPositions, Except.ok.injEq] at h
    rw [← h]
  | cons j js ih =>
    intro acc acc' h hgr
    cases hga : answer.get? j with
    | none =>
      cases hgg : guess.get? j with
      | none => rw [checkPositions_cons_err answer guess j js acc hgg] at h; simp at h
      | some gLet =>
        simp only [checkPositions, hga, hgg] at h
        exact Except.noConfusion h
    | some tLet =>
      cases hgg : guess.get? j with
      | none => rw [checkPositions_cons_err answer guess j js acc hgg] at h; simp at h
      | some gLet =>
        rw [checkPositions_cons answer guess j js acc tLet gLet hga hgg] at h
        have hpos : posCode answer guess j =
            some (if gLet = tLet then Square.green
              else if gLet ∈ answer then Square.yellow else Square.gray) := by
          simp only [posCode, hga, hgg]
        by_cases h1 : gLet = tLet
        · rw [if_pos h1] at h
          have hposg : posCode answer guess j = some Square.green := by
            rw [hpos, if_pos h1]
          have hds : dictSet acc.equals j gLet = acc.equals :=
            dictSet_eq_self acc.equals j gLet
              (hgr j gLet (List.mem_cons_self _ _) hgg hposg)
          have hrec := ih _ _ h (fun j0 g hj0 hg hcode => by
            show dlookup (dictSet acc.equals j gLet) j0 = some g
            rw [hds]
            exact hgr j0 g (List.mem_cons_of_mem _ hj0) hg hcode)
          rw [hrec]
          exact hds
        · rw [if_neg h1] at h
          by_cases h2 : gLet ∈ answer
          · rw [if_pos h2] at h
            have hrec := ih _ _ h (fun j0 g hj0 hg hcode =>
              hgr j0 g (List.mem_cons_of_mem _ hj0) hg hcode)
            exact hrec
          · rw [if_neg h2] at h
            have hrec := ih _ _ h (fun j0 g hj0 hg hcode =>
              hgr j0 g (List.mem_cons_of_mem _ hj0) hg hcode)
            exact hrec

/-- Full characterization of one `check_word` call on an equal-length guess. -/
theorem check_word_precise (st : GameState) (guess : Word)
    (hs : st.solved = false) (hg : guess.length = st.answer.length) :
    ∃ st1 bd, check_word st guess = .ok st1 ∧
      st1.answer = st.answer ∧ st1.freq = st.freq ∧ st1.filtered = st.filtered ∧
      st1.solved = false ∧ st1.played = st.played ∧ st1.guesses = st.guesses ∧
      st1.board = st.board ++ [bd] ∧ bd.length = st.answer.length ∧
      (∀ i, bd.get? i =
        ((List.range st.answer.length).get? i).bind (posCode st.answer guess)) ∧
      (∀ j g, guess.get? j = some g →
        posCode st.answer guess j = some Square.green →
        dlookup st1.equals j = some g) ∧
      (∀ j, ¬ posCode st.answer guess j = some Square.green →
        dlookup st1.equals j = dlookup st.equals j) ∧
      (∀ j g, guess.get? j = some g →
        posCode st.answer guess j = some Square.yellow →
        cList st1.contains j = cList st.contains j ++ [g]) ∧
      (∀ j, ¬ posCode st.answer guess j = some Square.yellow →
        cList st1.contains j = cList st.contains j) ∧
      st1.not_in = st.not_in ++
        (List.range st.answer.length).filterMap (grayAt st.answer guess) := by
  have hin : ∀ j ∈ List.range st.answer.length,
      j < st.answer.length ∧ j < guess.length := by
    intro j hj
    have hjr := List.mem_range.mp hj
    exact ⟨hjr, by rw [hg]; exact hjr⟩
  obtain ⟨acc', hrun, hlen, hold, hat, hgrn, heqs, hylw, hcts, hni⟩ :=
    checkPositions_precise st.answer guess (List.range st.answer.length)
      ⟨[], st.equals, st.contains, st.not_in⟩ (List.nodup_range _) hin
  have hns : ¬ st.solved = true := by rw [hs]; exact Bool.false_ne_true
  have hposmem : ∀ (j : Nat) (sq : Square), posCode st.answer guess j = some sq →
      j ∈ List.range st.answer.length := by
    intro j sq hcode
    refine List.mem_range.mpr ?_
    by_contra hcon
    have hnone : st.answer.get? j = none :=
      List.get?_eq_none.mpr (Nat.le_of_not_lt hcon)
    cases hgg2 : guess.get? j with
    | none =>
      simp only [posCode, hnone, hgg2] at hcode
      exact Option.noConfusion hcode
    | some g2 =>
      simp only [posCode, hnone, hgg2] at hcode
      exact Option.noConfusion hcode
  refine ⟨{ st with
      equals := acc'.equals, contains := acc'.contains,
      not_in := acc'.not_in, board := st.board ++ [acc'.bd] }, acc'.bd,
    ?_, rfl, rfl, rfl, hs, rfl, rfl, rfl, ?_, ?_, ?_, ?_, ?_, ?_, ?_⟩
  · rw [check_word, if_neg hns, hrun]
  · simpa using hlen
  · intro i
    have h4 := hat i
    simpa using h4
  · intro j g hgj hcode
    exact hgrn j g (hposmem j Square.green hcode) hgj hcode
  · intro j hncode
    exact heqs j (fun _ => hncode)
  · intro j g hgj hcode
    exact hylw j g (hposmem j Square.yellow hcode) hgj hcode
  · intro j hncode
    exact hcts j (fun _ => hncode)
  · exact hni

/-- `check_word` applied a second time with the same guess keeps `equals`
literally unchanged (the Exact letters are already recorded). -/
theorem check_word_equals_stable (st : GameState) (guess : Word)
    (hs : st.solved = false) (hg : guess.length = st.answer.length)
    (hgr : ∀ j g, guess.get? j = some g →
      posCode st.answer guess j = some Square.green →
      dlookup st.equals j = some g) :
    ∃ st2, check_word st guess = .ok st2 ∧ st2.equals = st.equals := by
  have hin : ∀ j ∈ List.range st.answer.length,
      j < st.answer.length ∧ j < guess.length := by
    intro j hj
    have hjr := List.mem_range.mp hj
    exact ⟨hjr, by rw [hg]; exact hjr⟩
  obtain ⟨acc', hrun⟩ := checkPositions_ok st.answer guess
    (List.range st.answer.length) ⟨[], st.equals, st.contains, st.not_in⟩ hin
  have hns : ¬ st.solved = true := by rw [hs]; exact Bool.false_ne_true
  have heqst : acc'.equals = st.equals :=
    checkPositions_equals_stable st.answer guess _ _ _ hrun
      (fun j g _ hgj hcode => hgr j g hgj hcode)
  refine ⟨{ st with
      equals := acc'.equals, contains := acc'.contains,
      not_in := acc'.not_in, board := st.board ++ [acc'.bd] }, ?_, heqst⟩
  rw [check_word, if_neg hns, hrun]

/-! ## `make_guess` and frame lemmas -/

/-- On a nonempty candidate dict with positive scores, `make_guess` succeeds,
returns one of the candidate words, and only appends it to the guess history. -/
theorem make_guess_ok (st : GameState) (r : Nat)
    (hne : st.filtered ≠ [])
    (hpos : ∀ p ∈ st.filtered, (0 : Int) < p.2) :
    ∃ g, make_guess st r = .ok (g, { st with guesses := st.guesses ++ [g] }) ∧
      ∃ s : Score, (g, s) ∈ st.filtered := by
  cases hd : st.filtered with
  | nil => exact absurd hd hne
  | cons p d =>
    rw [hd] at hpos
    have htot : (0 : Int) < (((p :: d).map Prod.snd).sum) := by
      refine List.sum_pos _ (fun x hx => ?_) (by simp)
      obtain ⟨q, hq, hqx⟩ := List.mem_map.mp hx
      exact hqx ▸ hpos q hq
    have htne : ¬ (((p :: d).map Prod.snd).sum = 0) := by
      intro hh
      rw [hh] at htot
      exact lt_irrefl 0 htot
    have hkeys : (p :: d).map Prod.fst = p.1 :: d.map Prod.fst := rfl
    have hlenpos : 0 < (p.1 :: d.map Prod.fst).length := Nat.succ_pos _
    have hlt : r % (p.1 :: d.map Prod.fst).length < (p.1 :: d.map Prod.fst).length :=
      Nat.mod_lt _ hlenpos
    refine ⟨((p.1 :: d.map Prod.fst).get?
        (r % (p.1 :: d.map Prod.fst).length)).getD p.1, ?_, ?_⟩
    · simp only [make_guess, hd]
      rw [if_neg htne]
      simp only [hkeys, npChoice]
    · have hmemk : ((p.1 :: d.map Prod.fst).get?
          (r % (p.1 :: d.map Prod.fst).length)).getD p.1 ∈ p.1 :: d.map Prod.fst := by
        cases hq : (p.1 :: d.map Prod.fst).get? (r % (p.1 :: d.map Prod.fst).length) with
        | none => exact List.mem_cons_self _ _
        | some x =>
          rw [Option.getD_some]
          exact List.get?_mem hq
      rw [← hkeys] at hmemk
      obtain ⟨q, hq, hqg⟩ := List.mem_map.mp hmemk
      rw [hkeys] at hqg
      refine ⟨q.2, ?_⟩
      rw [← hqg, Prod.mk.eta]
      exact hq

/-- `make_guess` on an empty candidate dict fails with numpy's ValueError. -/
theorem make_guess_empty (st : GameState) (r : Nat) (h : st.filtered = []) :
    make_guess st r = .error Err.valueError := by
  simp only [make_guess, h]

/-- Unconditional frame facts of a successful `check_word`. -/
theorem check_word_frame (st st' : GameState) (guess : Word)
    (h : check_word st guess = .ok st') :
    st'.answer = st.answer ∧ st'.freq = st.freq ∧ st'.filtered = st.filtered ∧
    st'.solved = st.solved ∧ st'.played = st.played ∧ st'.guesses = st.guesses := by
  by_cases hs : st.solved
  · rw [check_word, if_pos hs] at h
    simp only [Except.ok.injEq] at h
    subst h
    exact ⟨rfl, rfl, rfl, rfl, rfl, rfl⟩
  · rw [check_word, if_neg hs] at h
    cases hrun : checkPositions st.answer guess (List.range st.answer.length)
        ⟨[], st.equals, st.contains, st.not_in⟩ with
    | error e =>
      rw [hrun] at h
      exact Except.noConfusion h
    | ok acc =>
      rw [hrun] at h
      simp only [Except.ok.injEq] at h
      subst h
      exact ⟨rfl, rfl, rfl, rfl, rfl, rfl⟩

/-- Unconditional frame facts of a successful `filter_possible`. -/
theorem filter_possible_frame (st st' : GameState)
    (h : filter_possible st = .ok st') :
    st'.answer = st.answer ∧ st'.freq = st.freq ∧ st'.equals = st.equals ∧
    st'.contains = st.contains ∧ st'.not_in = st.not_in ∧
    st'.solved = st.solved ∧ st'.played = st.played ∧ st'.guesses = st.guesses ∧
    st'.board = st.board := by
  cases h1 : filterEquals st.equals st.filtered with
  | error e =>
    simp only [filter_possible, h1] at h
    exact Except.noConfusion h
  | ok d1 =>
    cases h2 : filterContains st.contains d1 with
    | error e =>
      simp only [filter_possible, h1, h2] at h
      exact Except.noConfusion h
    | ok d2 =>
      cases h3 : filterNotIn st.not_in d2 with
      | error e =>
        simp only [filter_possible, h1, h2, h3] at h
        exact Except.noConfusion h
      | ok d3 =>
        simp only [filter_possible, h1, h2, h3, Except.ok.injEq] at h
        subst h
        exact ⟨rfl, rfl, rfl, rfl, rfl, rfl, rfl, rfl, rfl⟩

/-- Unconditional frame facts of a successful `make_guess`. -/
theorem make_guess_frame (st : GameState) (r : Nat) (g : Word) (st' : GameState)
    (h : make_guess st r = .ok (g, st')) :
    st' = { st with guesses := st.guesses ++ [g] } := by
  cases hd : st.filtered with
  | nil =>
    rw [make_guess_empty st r hd] at h
    exact Except.noConfusion h
  | cons p d =>
    simp only [make_guess, hd] at h
    by_cases htz : (((p :: d).map Prod.snd).sum = 0)
    · rw [if_pos htz] at h
      exact Except.noConfusion h
    · rw [if_neg htz] at h
      cases hnp : npChoice ((p :: d).map Prod.fst) r with
      | error e =>
        rw [hnp] at h
        exact Except.noConfusion h
      | ok g2 =>
        rw [hnp] at h
        simp only [Except.ok.injEq, Prod.mk.injEq] at h
        obtain ⟨hg2, hst⟩ := h
        rw [← hst, hg2]

/-! ## The play loop -/

/-- Invariant maintained by the rounds of `play`: the session still targets
`answer`, is unsolved, its constraints are consistent with the answer, and the
answer is among the surviving candidates (which all come from the lexicon). -/
def loopInv (answer : Word) (freq : List (Word × Score)) (st : GameState) : Prop :=
  st.answer = answer ∧ st.freq = freq ∧ st.solved = false ∧
  answerConsistent st ∧ (∀ p ∈ st.filtered, p ∈ freq) ∧
  (∃ s : Score, (answer, s) ∈ st.filtered)

theorem playLoop_spec (answer : Word) (freq : List (Word × Score)) (sel : Nat → Nat)
    (HF : ∀ p ∈ freq, (p.1 : Word).length = answer.length ∧ (0 : Int) < p.2) :
    ∀ (fuel i : Nat) (st : GameState), loopInv answer freq st →
    ∃ st', playLoop sel i fuel st = .ok st' ∧
      st'.answer = answer ∧ st'.freq = freq ∧ st'.played = st.played ∧
      ∃ new : List Word, st'.guesses = st.guesses ++ new ∧ new.length ≤ fuel ∧
        (st'.solved = true → answer ∈ new) ∧
        (st'.solved = false → new.length = fuel ∧ ¬ answer ∈ new) := by
  intro fuel
  induction fuel with
  | zero =>
    intro i st hInv
    refine ⟨st, rfl, hInv.1, hInv.2.1, rfl, [], by simp, Nat.le_refl 0, ?_, ?_⟩
    · intro hsr
      rw [hInv.2.2.1] at hsr
      exact Bool.noConfusion hsr
    · intro _
      exact ⟨rfl, List.not_mem_nil _⟩
  | succ fuel ih =>
    intro i st hInv
    obtain ⟨hans, hfreq, hsolved, hcons, hsub, s0, hmem⟩ := hInv
    have hne : st.filtered ≠ [] := by
      intro hh
      rw [hh] at hmem
      exact (List.not_mem_nil _) hmem
    have hposf : ∀ p ∈ st.filtered, (0 : Int) < p.2 :=
      fun p hp => (HF p (hsub p hp)).2
    obtain ⟨g, hmg, s1, hgmem⟩ := make_guess_ok st (sel i) hne hposf
    have hglen : (g : Word).length = answer.length := (HF (g, s1) (hsub _ hgmem)).1
    have hg2 : ({ st with guesses := st.guesses ++ [g] } : GameState).answer.length ≤
        (g : Word).length := by
      show st.answer.length ≤ (g : Word).length
      rw [hans, hglen]
    obtain ⟨st2, hcw, hcw_ans, hcw_freq, hcw_filt, hcw_solved, hcw_played,
      hcw_guesses, hcw_cons⟩ :=
      check_word_ok { st with guesses := st.guesses ++ [g] } g hg2
    have hcons2 : answerConsistent st2 := hcw_cons hcons
    have hlen2 : ∀ p ∈ st2.filtered, (p.1 : Word).length = st2.answer.length := by
      intro p hp
      rw [hcw_filt] at hp
      rw [hcw_ans]
      show (p.1 : Word).length = st.answer.length
      rw [hans]
      exact (HF p (hsub p hp)).1
    obtain ⟨st3, hfp, hsub3, hkeep3, hfp_ans, hfp_freq, hfp_eq, hfp_ct, hfp_ni,
      hfp_solved, hfp_played, hfp_guesses, hfp_board⟩ :=
      filter_possible_ok st2 hcons2 hlen2
    have h3ans : st3.answer = answer := by
      rw [hfp_ans, hcw_ans]
      exact hans
    have h3freq : st3.freq = freq := by
      rw [hfp_freq, hcw_freq]
      exact hfreq
    have h3solved : st3.solved = false := by
      rw [hfp_solved, hcw_solved]
      exact hsolved
    have h3guesses : st3.guesses = st.guesses ++ [g] := by
      rw [hfp_guesses, hcw_guesses]
    have h3played : st3.played = st.played := by
      rw [hfp_played, hcw_played]
    have h3sub : ∀ p ∈ st3.filtered, p ∈ freq := by
      intro p hp
      have hp2 := hsub3.subset hp
      rw [hcw_filt] at hp2
      exact hsub p hp2
    have h3mem : ∃ s : Score, (answer, s) ∈ st3.filtered := by
      refine ⟨s0, ?_⟩
      have hm2 : (st2.answer, s0) ∈ st2.filtered := by
        rw [hcw_filt, hcw_ans]
        show ((st.answer : Word), s0) ∈ st.filtered
        rw [hans]
        exact hmem
      have hm3 := hkeep3 s0 hm2
      rw [hcw_ans] at hm3
      show ((answer : Word), s0) ∈ st3.filtered
      rw [← hans]
      exact hm3
    have hunf : playLoop sel i (fuel + 1) st =
        if is_solved st3 g then .ok { st3 with solved := true }
        else playLoop sel (i + 1) fuel st3 := by
      simp only [playLoop, hmg, hcw, hfp]
    by_cases hsolve : is_solved st3 g
    · refine ⟨{ st3 with solved := true }, ?_, h3ans, h3freq, h3played, [g],
        ?_, by simp, ?_, ?_⟩
      · rw [hunf, if_pos hsolve]
      · show st3.guesses = st.guesses ++ [g]
        exact h3guesses
      · intro _
        have hge : g = st3.answer := by
          have hb : (g == st3.answer) = true := hsolve
          exact eq_of_beq hb
        rw [h3ans] at hge
        rw [hge]
        exact List.mem_cons_self _ _
      · intro hfalse
        exact Bool.noConfusion hfalse
    · have hInv3 : loopInv answer freq st3 :=
        ⟨h3ans, h3freq, h3solved, by
          refine ⟨?_, ?_, ?_⟩
          · show equalsOk st3.answer st3.equals
            rw [hfp_ans, hfp_eq]
            exact hcons2.1
          · show containsOk st3.answer st3.contains
            rw [hfp_ans, hfp_ct]
            exact hcons2.2.1
          · show notInOk st3.answer st3.not_in
            rw [hfp_ans, hfp_ni]
            exact hcons2.2.2,
          h3sub, h3mem⟩
      obtain ⟨st', hrun', hans', hfreq', hplayed', new', hg', hlen', hsolT, hsolF⟩ :=
        ih (i + 1) st3 hInv3
      refine ⟨st', ?_, hans', hfreq', by rw [hplayed', h3played], g :: new',
        ?_, ?_, ?_, ?_⟩
      · rw [hunf, if_neg hsolve]
        exact hrun'
      · rw [hg', h3guesses, List.append_assoc, List.singleton_append]
      · simp only [List.length_cons]
        omega
      · intro hsr
        exact List.mem_cons_of_mem _ (hsolT hsr)
      · intro hsf
        obtain ⟨hl, hnm⟩ := hsolF hsf
        refine ⟨by simp only [List.length_cons]; omega, ?_⟩
        intro hmem2
        rcases List.mem_cons.mp hmem2 with he | hm
        · apply hsolve
          show (g == st3.answer) = true
          rw [h3ans, ← he]
          exact beq_self_eq_true answer
        · exact hnm hm

theorem play_spec (answer : Word) (freq : List (Word × Score)) (sel : Nat → Nat)
    (HF : ∀ p ∈ freq, (p.1 : Word).length = answer.length ∧ (0 : Int) < p.2)
    (hmem : ∃ s : Score, (answer, s) ∈ freq) :
    ∃ st', play (initState answer freq) sel = .ok (st', st'.solved) ∧
      st'.answer = answer ∧ st'.guesses.length ≤ 6 ∧
      (st'.solved = true → answer ∈ st'.guesses ∧ 1 ≤ st'.guesses.length) ∧
      (st'.solved = false → st'.guesses.length = 6 ∧ ¬ answer ∈ st'.guesses) := by
  have hInv : loopInv answer freq (initState answer freq) := by
    refine ⟨rfl, rfl, rfl, ⟨?_, ?_, ?_⟩, fun p hp => hp, hmem⟩
    · intro kc hkc
      exact absurd hkc (List.not_mem_nil _)
    · intro kls hkls
      exact absurd hkls (List.not_mem_nil _)
    · intro c hc
      exact absurd hc (List.not_mem_nil _)
  obtain ⟨st1, hrun, hans1, hfreq1, hplayed1, new, hg1, hlen1, hsolT, hsolF⟩ :=
    playLoop_spec answer freq sel HF 6 0 (initState answer freq) hInv
  have hgeq : st1.guesses = new := hg1
  refine ⟨{ st1 with played := true }, ?_, hans1, ?_, ?_, ?_⟩
  · have hite : (if (initState answer freq).played = true
        then reset_game (initState answer freq) else initState answer freq) =
        initState answer freq := by
      rw [if_neg]
      exact Bool.false_ne_true
    simp only [play, hite, hrun]
  · show st1.guesses.length ≤ 6
    rw [hgeq]
    exact hlen1
  · intro hsr
    have hst1 : st1.solved = true := hsr
    refine ⟨?_, ?_⟩
    · show answer ∈ st1.guesses
      rw [hgeq]
      exact hsolT hst1
    · show 1 ≤ st1.guesses.length
      rw [hgeq]
      exact List.length_pos_of_mem (hsolT hst1)
  · intro hsf
    have hst1 : st1.solved = false := hsf
    obtain ⟨hl, hnm⟩ := hsolF hst1
    constructor
    · show st1.guesses.length = 6
      rw [hgeq]
      exact hl
    · show ¬ answer ∈ st1.guesses
      rw [hgeq]
      exact hnm

/-! ## Frame lemmas for the whole public surface -/

theorem playLoop_freq (sel : Nat → Nat) :
    ∀ (fuel i : Nat) (st st' : GameState),
    playLoop sel i fuel st = .ok st' → st'.freq = st.freq := by
  intro fuel
  induction fuel with
  | zero =>
    intro i st st' h
    simp only [playLoop, Except.ok.injEq] at h
    rw [← h]
  | succ fuel ih =>
    intro i st st' h
    cases hmg : make_guess st (sel i) with
    | error e =>
      simp only [playLoop, hmg] at h
      exact Except.noConfusion h
    | ok pr =>
      obtain ⟨g, st1⟩ := pr
      have hst1 : st1 = { st with guesses := st.guesses ++ [g] } :=
        make_guess_frame st (sel i) g st1 hmg
      simp only [playLoop, hmg] at h
      cases hcw : check_word st1 g with
      | error e =>
        simp only [hcw] at h
        exact Except.noConfusion h
      | ok st2 =>
        simp only [hcw] at h
        cases hfp : filter_possible st2 with
        | error e =>
          simp only [hfp] at h
          exact Except.noConfusion h
        | ok st3 =>
          simp only [hfp] at h
          have hfr : st3.freq = st.freq := by
            rw [(filter_possible_frame st2 st3 hfp).2.1,
              (check_word_frame st1 st2 g hcw).2.1, hst1]
          by_cases hslv : is_solved st3 g
          · rw [if_pos hslv] at h
            simp only [Except.ok.injEq] at h
            rw [← h]
            exact hfr
          · rw [if_neg hslv] at h
            rw [ih (i + 1) st3 st' h]
            exact hfr

theorem play_freq (st : GameState) (sel : Nat → Nat) (pr : GameState × Bool)
    (h : play st sel = .ok pr) : pr.1.freq = st.freq := by
  cases hrun : playLoop sel 0 6 (if st.played then reset_game st else st) with
  | error e =>
    simp only [play, hrun] at h
    exact Except.noConfusion h
  | ok st1 =>
    simp only [play, hrun, Except.ok.injEq] at h
    rw [← h]
    show st1.freq = st.freq
    rw [playLoop_freq sel 6 0 _ st1 hrun]
    by_cases hp : st.played
    · rw [if_pos hp]
      rfl
    · rw [if_neg hp]

theorem applyOp_freq (st : GameState) (op : Op) (st' : GameState)
    (h : applyOp st op = .ok st') : st'.freq = st.freq := by
  cases op with
  | opPlay sel =>
    simp only [applyOp] at h
    cases hp : play st sel with
    | error e =>
      simp only [hp] at h
      exact Except.noConfusion h
    | ok pr =>
      simp only [hp, Except.ok.injEq] at h
      rw [← h]
      exact play_freq st sel pr hp
  | opMakeGuess r =>
    simp only [applyOp] at h
    cases hm : make_guess st r with
    | error e =>
      simp only [hm] at h
      exact Except.noConfusion h
    | ok pr =>
      obtain ⟨g, st2⟩ := pr
      simp only [hm, Except.ok.injEq] at h
      rw [← h, make_guess_frame st r g st2 hm]
  | opCheckWord g => exact (check_word_frame st st' g h).2.1
  | opFilterPossible => exact (filter_possible_frame st st' h).2.1
  | opResetGame =>
    simp only [applyOp, Except.ok.injEq] at h
    rw [← h]
    rfl

/-! ## Claim theorems -/

/-- C1: for a guess of the configured word length, `check_word` marks
position `i` green and records the answer letter in `equals[i]` when the
letters agree; otherwise yellow, with the guess letter recorded in
`contains[i]`, when the guess letter occurs anywhere in the answer; otherwise
gray, with the guess letter recorded in the global exclusion list `not_in`. -/
theorem c1_check_word_feedback (st : GameState) (guess : Word)
    (hs : st.solved = false) (hg : guess.length = st.answer.length) :
    ∃ st1 bd, check_word st guess = .ok st1 ∧ st1.board = st.board ++ [bd] ∧
      bd.length = st.answer.length ∧
      ∀ j t g, st.answer.get? j = some t → guess.get? j = some g →
        (g = t → bd.get? j = some Square.green ∧ dlookup st1.equals j = some t) ∧
        (¬ g = t → g ∈ st.answer →
          bd.get? j = some Square.yellow ∧ g ∈ cList st1.contains j) ∧
        (¬ g ∈ st.answer →
          bd.get? j = some Square.gray ∧ g ∈ st1.not_in) := by
  obtain ⟨st1, bd, hrun, h1ans, h1freq, h1filt, h1solved, h1played, h1guesses,
    h1board, h1bdlen, h1bdget, h1grn, h1eqs, h1ylw, h1cts, h1ni⟩ :=
    check_word_precise st guess hs hg
  refine ⟨st1, bd, hrun, h1board, h1bdlen, ?_⟩
  intro j t g hga hgj
  have hjlt : j < st.answer.length := by
    by_contra hcon
    rw [List.get?_eq_none.mpr (Nat.le_of_not_lt hcon)] at hga
    exact Option.noConfusion hga
  have hbdj : bd.get? j = posCode st.answer guess j := by
    rw [h1bdget j, List.get?_range hjlt]
    rfl
  refine ⟨?_, ?_, ?_⟩
  · intro hgt
    have hcode : posCode st.answer guess j = some Square.green := by
      simp only [posCode, hga, hgj]
      rw [if_pos hgt]
    refine ⟨by rw [hbdj, hcode], ?_⟩
    have := h1grn j g hgj hcode
    rw [hgt] at this
    exact this
  · intro hgt hgm
    have hcode : posCode st.answer guess j = some Square.yellow := by
      simp only [posCode, hga, hgj]
      rw [if_neg hgt, if_pos hgm]
    refine ⟨by rw [hbdj, hcode], ?_⟩
    rw [h1ylw j g hgj hcode]
    exact List.mem_append.mpr (Or.inr (List.mem_singleton.mpr rfl))
  · intro hgm
    have hgt : ¬ g = t := by
      intro hh
      rw [hh] at hgm
      exact hgm (List.get?_mem hga)
    have hcode : posCode st.answer guess j = some Square.gray := by
      simp only [posCode, hga, hgj]
      rw [if_neg hgt, if_neg hgm]
    refine ⟨by rw [hbdj, hcode], ?_⟩
    rw [h1ni]
    refine List.mem_append.mpr (Or.inr ?_)
    refine List.mem_filterMap.mpr ⟨j, List.mem_range.mpr hjlt, ?_⟩
    simp only [grayAt, hga, hgj]
    rw [if_neg hgt, if_neg hgm]

/-- C2: in a session whose target is among the initial candidates, every
`check_word` + `filter_possible` round keeps the target as a key of the
filtered candidate dict and produces a key-subset of the previous candidate
dict, so the candidate count never increases; the round hypotheses hold of
the initial state and are re-established by each round. -/
theorem c2_filter_preserves_target (answer : Word) (freq : List (Word × Score))
    (hlen : ∀ p ∈ freq, (p.1 : Word).length = answer.length)
    (hmem : ∃ s : Score, (answer, s) ∈ freq) :
    ((∃ s : Score, (answer, s) ∈ (initState answer freq).filtered) ∧
      answerConsistent (initState answer freq) ∧
      (∀ p ∈ (initState answer freq).filtered, (p.1 : Word).length = answer.length)) ∧
    (∀ st guess, st.answer = answer → answerConsistent st →
      (∀ p ∈ st.filtered, (p.1 : Word).length = answer.length) →
      (∃ s : Score, (answer, s) ∈ st.filtered) →
      guess.length = answer.length →
      ∃ st1 st2, check_word st guess = .ok st1 ∧ filter_possible st1 = .ok st2 ∧
        st1.filtered = st.filtered ∧
        (∀ p ∈ st2.filtered, p ∈ st.filtered) ∧
        st2.filtered.length ≤ st.filtered.length ∧
        (∃ s : Score, (answer, s) ∈ st2.filtered) ∧
        st2.answer = answer ∧ answerConsistent st2 ∧
        (∀ p ∈ st2.filtered, (p.1 : Word).length = answer.length)) := by
  constructor
  · refine ⟨hmem, ⟨?_, ?_, ?_⟩, hlen⟩
    · intro kc hkc
      exact absurd hkc (List.not_mem_nil _)
    · intro kls hkls
      exact absurd hkls (List.not_mem_nil _)
    · intro c hc
      exact absurd hc (List.not_mem_nil _)
  · intro st guess hstans hcons hstlen hstmem hglen
    have hle : st.answer.length ≤ guess.length := by
      rw [hstans, hglen]
    obtain ⟨st1, hcw, h1ans, h1freq, h1filt, h1solved, h1played, h1guesses,
      h1cons⟩ := check_word_ok st guess hle
    have hcons1 : answerConsistent st1 := h1cons hcons
    have hlen1 : ∀ p ∈ st1.filtered, (p.1 : Word).length = st1.answer.length := by
      intro p hp
      rw [h1filt] at hp
      rw [h1ans, hstans]
      exact hstlen p hp
    obtain ⟨st2, hfp, hsub2, hkeep2, h2ans, h2freq, h2eq, h2ct, h2ni, h2solved,
      h2played, h2guesses, h2board⟩ := filter_possible_ok st1 hcons1 hlen1
    have h2ans2 : st2.answer = answer := by
      rw [h2ans, h1ans]
      exact hstans
    refine ⟨st1, st2, hcw, hfp, h1filt, ?_, ?_, ?_, h2ans2, ?_, ?_⟩
    · intro p hp
      have hp1 := hsub2.subset hp
      rw [h1filt] at hp1
      exact hp1
    · have hle2 := hsub2.length_le
      rw [h1filt] at hle2
      exact hle2
    · obtain ⟨s, hmem2⟩ := hstmem
      refine ⟨s, ?_⟩
      have hm1 : (st1.answer, s) ∈ st1.filtered := by
        rw [h1filt, h1ans, hstans]
        exact hmem2
      have hm2 := hkeep2 s hm1
      rw [h1ans, hstans] at hm2
      exact hm2
    · refine ⟨?_, ?_, ?_⟩
      · show equalsOk st2.answer st2.equals
        rw [h2ans, h2eq]
        exact hcons1.1
      · show containsOk st2.answer st2.contains
        rw [h2ans, h2ct]
        exact hcons1.2.1
      · show notInOk st2.answer st2.not_in
        rw [h2ans, h2ni]
        exact hcons1.2.2
    · intro p hp
      have hp1 := hsub2.subset hp
      rw [h1filt] at hp1
      exact hstlen p hp1

/-- C3: a session that never guesses the target makes exactly 6 guesses,
`play` stops and returns false, and `return_total_moves` then reports 7; a
solved session reports its guess count, which lies in `[1, 6]`. -/
theorem c3_round_budget (answer : Word) (freq : List (Word × Score))
    (sel : Nat → Nat)
    (HF : ∀ p ∈ freq, (p.1 : Word).length = answer.length ∧ (0 : Int) < p.2)
    (hmem : ∃ s : Score, (answer, s) ∈ freq) :
    ∃ st' b, play (initState answer freq) sel = .ok (st', b) ∧
      (¬ answer ∈ st'.guesses →
        st'.guesses.length = 6 ∧ b = false ∧ return_total_moves st' = 7) ∧
      (b = true → return_total_moves st' = st'.guesses.length ∧
        1 ≤ st'.guesses.length ∧ st'.guesses.length ≤ 6) := by
  obtain ⟨st', hrun, hans, hlen6, hsolT, hsolF⟩ := play_spec answer freq sel HF hmem
  refine ⟨st', st'.solved, hrun, ?_, ?_⟩
  · intro hnm
    have hsf : st'.solved = false := by
      cases hbs : st'.solved
      · rfl
      · exact absurd (hsolT hbs).1 hnm
    obtain ⟨hl6, _⟩ := hsolF hsf
    refine ⟨hl6, hsf, ?_⟩
    rw [return_total_moves, if_pos ⟨hsf, hl6⟩]
  · intro hb
    obtain ⟨_, h1⟩ := hsolT hb
    have hrtm : return_total_moves st' = st'.guesses.length := by
      rw [return_total_moves, if_neg]
      intro hand
      rw [hb] at hand
      exact Bool.noConfusion hand.1
    exact ⟨hrtm, h1, hlen6⟩

/-- C7 amended: `play` returns true exactly when the session is solved, and
`return_total_moves` reports 7 — not 6 — when the session exhausts its six
guesses without solving, and the guess count, in `[1, 6]`, when solved. -/
theorem c7_play_result (answer : Word) (freq : List (Word × Score))
    (sel : Nat → Nat)
    (HF : ∀ p ∈ freq, (p.1 : Word).length = answer.length ∧ (0 : Int) < p.2)
    (hmem : ∃ s : Score, (answer, s) ∈ freq) :
    ∃ st' b, play (initState answer freq) sel = .ok (st', b) ∧ b = st'.solved ∧
      (st'.solved = false → st'.guesses.length = 6 →
        return_total_moves st' = 7) ∧
      (st'.solved = true → return_total_moves st' = st'.guesses.length ∧
        1 ≤ return_total_moves st' ∧ return_total_moves st' ≤ 6) := by
  obtain ⟨st', hrun, hans, hlen6, hsolT, hsolF⟩ := play_spec answer freq sel HF hmem
  refine ⟨st', st'.solved, hrun, rfl, ?_, ?_⟩
  · intro hsf hl6
    rw [return_total_moves, if_pos ⟨hsf, hl6⟩]
  · intro hb
    have hge1 := (hsolT hb).2
    have hrtm : return_total_moves st' = st'.guesses.length := by
      rw [return_total_moves, if_neg]
      intro hand
      rw [hb] at hand
      exact Bool.noConfusion hand.1
    refine ⟨hrtm, ?_, ?_⟩
    · rw [hrtm]
      exact hge1
    · rw [hrtm]
      exact hlen6

/-- C5 amended: absorbing the same feedback for the same guess twice is
idempotent only on `equals`; the second absorption appends every Absent
letter to `not_in` again and appends each Present letter to its
`contains[i]` bucket again — list semantics, not set semantics. -/
theorem c5_absorb_twice (st : GameState) (guess : Word)
    (hs : st.solved = false) (hg : guess.length = st.answer.length) :
    ∃ st1 st2, check_word st guess = .ok st1 ∧ check_word st1 guess = .ok st2 ∧
      st2.equals = st1.equals ∧
      st2.not_in = st1.not_in ++
        (List.range st.answer.length).filterMap (grayAt st.answer guess) ∧
      (∀ j g, guess.get? j = some g →
        posCode st.answer guess j = some Square.yellow →
        cList st2.contains j = cList st1.contains j ++ [g]) := by
  obtain ⟨st1, bd, hrun1, h1ans, h1freq, h1filt, h1solved, h1played, h1guesses,
    h1board, h1bdlen, h1bdget, h1grn, h1eqs, h1ylw, h1cts, h1ni⟩ :=
    check_word_precise st guess hs hg
  have hg1 : guess.length = st1.answer.length := by
    rw [h1ans]
    exact hg
  obtain ⟨st2, bd2, hrun2, h2ans, h2freq, h2filt, h2solved, h2played, h2guesses,
    h2board, h2bdlen, h2bdget, h2grn, h2eqs, h2ylw, h2cts, h2ni⟩ :=
    check_word_precise st1 guess h1solved hg1
  obtain ⟨st2b, hrun2b, h2beq⟩ := check_word_equals_stable st1 guess h1solved hg1
    (fun j g hgj hcode => h1grn j g hgj (by rw [← h1ans]; exact hcode))
  rw [hrun2] at hrun2b
  have hbb : st2 = st2b := by
    simpa using hrun2b
  refine ⟨st1, st2, hrun1, hrun2, ?_, ?_, ?_⟩
  · rw [hbb]
    exact h2beq
  · rw [h2ni, h1ans]
  · intro j g hgj hcode
    refine h2ylw j g hgj ?_
    rw [h1ans]
    exact hcode

/-- C6 amended: `check_word` performs no length check at all — a guess
longer than the answer succeeds with its extra letters ignored, while a
guess shorter than the answer fails with Python's IndexError from
out-of-range indexing, not with any dedicated length-mismatch error. -/
theorem c6_no_length_check (st : GameState) (guess : Word)
    (hs : st.solved = false) :
    (guess.length < st.answer.length →
      check_word st guess = .error Err.indexError ∧
      ¬ Err.indexError = Err.lengthMismatchError) ∧
    (st.answer.length ≤ guess.length →
      ∃ st1, check_word st guess = .ok st1) := by
  constructor
  · intro hlt
    exact ⟨check_word_err st guess hs hlt, by decide⟩
  · intro hle
    obtain ⟨st1, hrun, _⟩ := check_word_ok st guess hle
    exact ⟨st1, hrun⟩

/-- C4 amended: on an empty candidate dict `make_guess` does fail, but with
the generic ValueError numpy raises when asked to choose from an empty
sequence; the code defines no EmptyCandidateSetError. -/
theorem c4_empty_candidates_error (st : GameState) (r : Nat)
    (h : st.filtered = []) : make_guess st r = .error Err.valueError :=
  make_guess_empty st r h

/-- C8: after `reset_game`, the candidate dict is again the full scored
lexicon `self.freq`, the three constraint stores are empty, and the guess
and board histories are empty, regardless of the prior session state. -/
theorem c8_reset_state (st : GameState) :
    (reset_game st).filtered = st.freq ∧ (reset_game st).equals = [] ∧
    (reset_game st).contains = [] ∧ (reset_game st).not_in = [] ∧
    (reset_game st).guesses = [] ∧ (reset_game st).board = [] :=
  ⟨rfl, rfl, rfl, rfl, rfl, rfl⟩

/-- C9: no session operation ever changes `self.freq` — after any successful
sequence of `play` / `make_guess` / `check_word` / `filter_possible` /
`reset_game` calls the scored lexicon is exactly what it was at
construction. -/
theorem c9_freq_immutable :
    ∀ (ops : List Op) (st st' : GameState),
    runOps ops st = .ok st' → st'.freq = st.freq := by
  intro ops
  induction ops with
  | nil =>
    intro st st' h
    simp only [runOps, Except.ok.injEq] at h
    rw [← h]
  | cons op ops ih =>
    intro st st' h
    simp only [runOps] at h
    cases ha : applyOp st op with
    | error e =>
      simp only [ha] at h
      exact Except.noConfusion h
    | ok st1 =>
      simp only [ha] at h
      rw [ih st1 st' h]
      exact applyOp_freq st op st1 ha

/-- C10: calling `play` on a session whose previous play completed first
resets it — the same computation as playing the explicitly reset session —
and the reset restores the candidate dict to the full lexicon, clears the
constraint stores and histories, and keeps the same target. -/
theorem c10_replay_resets (st : GameState) (sel : Nat → Nat)
    (h : st.played = true) :
    play st sel = play (reset_game st) sel ∧
    (reset_game st).filtered = st.freq ∧ (reset_game st).equals = [] ∧
    (reset_game st).contains = [] ∧ (reset_game st).not_in = [] ∧
    (reset_game st).guesses = [] ∧ (reset_game st).board = [] ∧
    (reset_game st).answer = st.answer := by
  refine ⟨?_, rfl, rfl, rfl, rfl, rfl, rfl, rfl⟩
  have h1 : (if st.played = true then reset_game st else st) = reset_game st :=
    if_pos h
  have h2 : (if (reset_game st).played = true then reset_game (reset_game st)
      else reset_game st) = reset_game st := by
    rw [if_neg]
    exact Bool.false_ne_true
  simp only [play]
  rw [h1, h2]

/-! ## Concrete sessions for witnesses and counterexamples -/

/-- A five-letter demo lexicon holding only its answer word. -/
def demoAnswer : Word := ['a', 'b', 'c', 'd', 'e']

def demoFreq : List (Word × Score) := [(demoAnswer, 1)]

def c1State : GameState :=
  initState ['c', 'r', 'a', 'n', 'e']
    [(['c', 'r', 'a', 'n', 'e'], 2), (['r', 'a', 'i', 's', 'e'], 1)]

def c1Guess : Word := ['r', 'a', 'i', 's', 'e']

theorem c1_witness :
    c1State.solved = false ∧ c1Guess.length = c1State.answer.length ∧
    (∃ st1 bd, check_word c1State c1Guess = .ok st1 ∧
      st1.board = c1State.board ++ [bd] ∧ bd.length = c1State.answer.length ∧
      ∀ j t g, c1State.answer.get? j = some t → c1Guess.get? j = some g →
        (g = t → bd.get? j = some Square.green ∧ dlookup st1.equals j = some t) ∧
        (¬ g = t → g ∈ c1State.answer →
          bd.get? j = some Square.yellow ∧ g ∈ cList st1.contains j) ∧
        (¬ g ∈ c1State.answer →
          bd.get? j = some Square.gray ∧ g ∈ st1.not_in)) :=
  ⟨rfl, rfl, c1_check_word_feedback c1State c1Guess rfl rfl⟩

theorem c2_witness :
    (∀ p ∈ demoFreq, (p.1 : Word).length = demoAnswer.length) ∧
    (∃ s : Score, (demoAnswer, s) ∈ demoFreq) ∧
    (((∃ s : Score, (demoAnswer, s) ∈ (initState demoAnswer demoFreq).filtered) ∧
      answerConsistent (initState demoAnswer demoFreq) ∧
      (∀ p ∈ (initState demoAnswer demoFreq).filtered,
        (p.1 : Word).length = demoAnswer.length)) ∧
    (∀ st guess, st.answer = demoAnswer → answerConsistent st →
      (∀ p ∈ st.filtered, (p.1 : Word).length = demoAnswer.length) →
      (∃ s : Score, (demoAnswer, s) ∈ st.filtered) →
      guess.length = demoAnswer.length →
      ∃ st1 st2, check_word st guess = .ok st1 ∧ filter_possible st1 = .ok st2 ∧
        st1.filtered = st.filtered ∧
        (∀ p ∈ st2.filtered, p ∈ st.filtered) ∧
        st2.filtered.length ≤ st.filtered.length ∧
        (∃ s : Score, (demoAnswer, s) ∈ st2.filtered) ∧
        st2.answer = demoAnswer ∧ answerConsistent st2 ∧
        (∀ p ∈ st2.filtered, (p.1 : Word).length = demoAnswer.length))) :=
  ⟨by decide, ⟨1, by decide⟩,
    c2_filter_preserves_target demoAnswer demoFreq (by decide) ⟨1, by decide⟩⟩

theorem c3_witness :
    (∀ p ∈ demoFreq, (p.1 : Word).length = demoAnswer.length ∧ (0 : Int) < p.2) ∧
    (∃ s : Score, (demoAnswer, s) ∈ demoFreq) ∧
    (∃ st' b, play (initState demoAnswer demoFreq) (fun _ => 0) = .ok (st', b) ∧
      (¬ demoAnswer ∈ st'.guesses →
        st'.guesses.length = 6 ∧ b = false ∧ return_total_moves st' = 7) ∧
      (b = true → return_total_moves st' = st'.guesses.length ∧
        1 ≤ st'.guesses.length ∧ st'.guesses.length ≤ 6)) :=
  ⟨by decide, ⟨1, by decide⟩,
    c3_round_budget demoAnswer demoFreq (fun _ => 0) (by decide) ⟨1, by decide⟩⟩

def c4State : GameState := { initState demoAnswer demoFreq with filtered := [] }

theorem c4_counterexample :
    make_guess c4State 0 = .error Err.valueError ∧
    ¬ Err.valueError = Err.emptyCandidateSetError :=
  ⟨rfl, by decide⟩

theorem c4_witness :
    c4State.filtered = [] ∧ make_guess c4State 0 = .error Err.valueError :=
  ⟨rfl, c4_empty_candidates_error c4State 0 rfl⟩

def c5State : GameState := initState demoAnswer demoFreq

def c5Guess : Word := ['b', 'a', 'c', 'd', 'e']

theorem c5_counterexample :
    Except.map (fun s => cList s.contains 0)
      (Except.bind (check_word c5State c5Guess)
        (fun s1 => check_word s1 c5Guess)) = .ok ['b', 'b'] ∧
    Except.map (fun s => cList s.contains 0) (check_word c5State c5Guess) =
      .ok ['b'] ∧
    ¬ (['b', 'b'] : List Char) = ['b'] :=
  ⟨rfl, rfl, by decide⟩

theorem c5_witness :
    c5State.solved = false ∧ c5Guess.length = c5State.answer.length ∧
    (∃ st1 st2, check_word c5State c5Guess = .ok st1 ∧
      check_word st1 c5Guess = .ok st2 ∧
      st2.equals = st1.equals ∧
      st2.not_in = st1.not_in ++
        (List.range c5State.answer.length).filterMap
          (grayAt c5State.answer c5Guess) ∧
      (∀ j g, c5Guess.get? j = some g →
        posCode c5State.answer c5Guess j = some Square.yellow →
        cList st2.contains j = cList st1.contains j ++ [g])) :=
  ⟨rfl, rfl, c5_absorb_twice c5State c5Guess rfl rfl⟩

def c6State : GameState := initState demoAnswer demoFreq

def c6Long : Word := ['a', 'b', 'c', 'd', 'e', 'f']

def c6Short : Word := ['a', 'b']

theorem c6_counterexample :
    (check_word c6State c6Long).isOk = true ∧
    ¬ c6Long.length = c6State.answer.length ∧
    check_word c6State c6Short = .error Err.indexError ∧
    ¬ Err.indexError = Err.lengthMismatchError :=
  ⟨rfl, by decide, rfl, by decide⟩

theorem c6_witness :
    c6State.solved = false ∧
    ((c6Short.length < c6State.answer.length →
      check_word c6State c6Short = .error Err.indexError ∧
      ¬ Err.indexError = Err.lengthMismatchError) ∧
    (c6State.answer.length ≤ c6Short.length →
      ∃ st1, check_word c6State c6Short = .ok st1)) :=
  ⟨rfl, c6_no_length_check c6State c6Short rfl⟩

/-- Concrete exhausted run: seven words sharing their first four letters,
the answer listed last, constant scores, and a selector that always takes
the first remaining candidate, so six distinct wrong words get guessed. -/
def c7Answer : Word := ['a', 'a', 'a', 'a', 'a']

def c7Freq : List (Word × Score) :=
  [(['a', 'a', 'a', 'a', 'b'], 1), (['a', 'a', 'a', 'a', 'c'], 1),
   (['a', 'a', 'a', 'a', 'd'], 1), (['a', 'a', 'a', 'a', 'e'], 1),
   (['a', 'a', 'a', 'a', 'f'], 1), (['a', 'a', 'a', 'a', 'g'], 1),
   (c7Answer, 1)]

theorem c7_counterexample :
    Except.map (fun pr => (return_total_moves pr.1, pr.2))
      (play (initState c7Answer c7Freq) (fun _ => 0)) = .ok (7, false) ∧
    ¬ (7 : Nat) = 6 :=
  ⟨rfl, by decide⟩

theorem c7_witness :
    (∀ p ∈ demoFreq, (p.1 : Word).length = demoAnswer.length ∧ (0 : Int) < p.2) ∧
    (∃ s : Score, (demoAnswer, s) ∈ demoFreq) ∧
    (∃ st' b, play (initState demoAnswer demoFreq) (fun _ => 0) = .ok (st', b) ∧
      b = st'.solved ∧
      (st'.solved = false → st'.guesses.length = 6 →
        return_total_moves st' = 7) ∧
      (st'.solved = true → return_total_moves st' = st'.guesses.length ∧
        1 ≤ return_total_moves st' ∧ return_total_moves st' ≤ 6)) :=
  ⟨by decide, ⟨1, by decide⟩,
    c7_play_result demoAnswer demoFreq (fun _ => 0) (by decide) ⟨1, by decide⟩⟩

def c9State : GameState := initState demoAnswer demoFreq

theorem c9_witness :
    runOps [Op.opResetGame] c9State = .ok (reset_game c9State) ∧
    (reset_game c9State).freq = c9State.freq :=
  ⟨rfl, c9_freq_immutable [Op.opResetGame] c9State (reset_game c9State) rfl⟩

def c10State : GameState :=
  { initState demoAnswer demoFreq with
    played := true, solved := true, guesses := [demoAnswer] }

theorem c10_witness :
    c10State.played = true ∧
    (play c10State (fun _ => 0) = play (reset_game c10State) (fun _ => 0) ∧
      (reset_game c10State).filtered = c10State.freq ∧
      (reset_game c10State).equals = [] ∧
      (reset_game c10State).contains = [] ∧
      (reset_game c10State).not_in = [] ∧
      (reset_game c10State).guesses = [] ∧
      (reset_game c10State).board = [] ∧
      (reset_game c10State).answer = c10State.answer) :=
  ⟨rfl, c10_replay_resets c10State (fun _ => 0) rfl⟩

end WordleBot
